import Mathlib

/-!
# Verification of the `finite` finite-state automaton library

This file embeds the library's data model and operations (from
`src/automaton.rs`, `src/dfa.rs`, `src/nfa.rs`) in Lean and proves the
spec's claims about them.

Modelling conventions:

* `HashMap K V` for the `states` table is modelled as an association list
  `List (K × V)` with first-match lookup (`alookup`) and replace-or-append
  insertion (`mapInsert`).  A real `HashMap` always has pairwise distinct
  keys; theorems that depend on this carry a `keysNodup` hypothesis.
* `HashMap I target` for a single state's `transitions` table is modelled
  extensionally as a function `I → Option target` (a finite map is observed
  only through `get`/`insert` here, except in the powerset conversion where
  the resulting merged map is characterised pointwise).
* `HashSet S` and `BTreeSet S` are modelled as `Finset S`.  A `BTreeSet` is
  canonical (two sets with the same elements are equal), which `Finset`
  reflects exactly.
* A `panic!` (the `.unwrap()` calls in `accepts`/`step` on a state id that
  is absent from the `states` table) is modelled by returning `none`:
  operations that can panic return `Option`.  `NFA::step` iterates the
  whole current set, so it panics exactly when some member is undeclared.
  `NFA::accepts` short-circuits on the first accepting member: when
  `current` holds both an accepting declared member and an undeclared one,
  the source either returns `true` or panics depending on the unspecified
  iteration order of the hash set — the model keeps the completing
  execution (`some true`); when no accepting declared member exists, every
  iteration order reaches the undeclared member, so the model returns
  `none`; with all members declared the model returns the exact
  disjunction.
-/

set_option autoImplicit false
set_option linter.unusedSectionVars false

namespace Finite

variable {S I : Type}

/-- First-match lookup in an association list; models `HashMap::get`. -/
def alookup [DecidableEq S] {V : Type} (k : S) : List (S × V) → Option V
  | [] => none
  | (k', v) :: rest => if k' = k then some v else alookup k rest

/-- Models `HashMap::contains_key`. -/
def containsKey [DecidableEq S] {V : Type} (k : S) (l : List (S × V)) : Bool :=
  (alookup k l).isSome

/-- Replace the first entry with the given key, or append; models
`HashMap::insert` (extensionally: later lookups of `k` yield `v`). -/
def mapInsert [DecidableEq S] {V : Type} (k : S) (v : V) : List (S × V) → List (S × V)
  | [] => [(k, v)]
  | (k', v') :: rest => if k' = k then (k, v) :: rest else (k', v') :: mapInsert k v rest

/-- The list of keys of an association-list map. -/
def keysOf {V : Type} (l : List (S × V)) : List S := l.map Prod.fst

/-- The (finite) set of declared keys. -/
def keysFinset [DecidableEq S] {V : Type} (l : List (S × V)) : Finset S :=
  (keysOf l).toFinset

/-- The keys are pairwise distinct — always true of a real `HashMap`. -/
def keysNodup {V : Type} (l : List (S × V)) : Prop := (keysOf l).Nodup

/-- `enum AutomatonError` from `src/automaton.rs`. -/
inductive AutomatonError (S : Type) where
  | inexistentState (id : S)
deriving DecidableEq

/-- `dfa::State` from `src/dfa.rs`: accept flag plus transition table
`HashMap<I, S>` (one target per symbol). -/
structure DState (S I : Type) where
  accepts : Bool
  transitions : I → Option S

/-- `nfa::State` from `src/nfa.rs`: accept flag plus transition table
`HashMap<I, HashSet<S>>` (a target set per symbol). -/
structure NState (S I : Type) where
  accepts : Bool
  transitions : I → Option (Finset S)

/-- `DFA<S, I>` from `src/dfa.rs`. -/
structure DFA (S I : Type) where
  current : Option S
  states : List (S × DState S I)

/-- `NFA<S, I>` from `src/nfa.rs`. -/
structure NFA (S I : Type) where
  current : Finset S
  states : List (S × NState S I)

namespace DFA

variable [DecidableEq S] [DecidableEq I]

/-- `Automaton::new` / `Default` for `DFA`: no states, dead current. -/
def new : DFA S I := ⟨none, []⟩

/-- `Automaton::new_state` for `DFA`: the identity on ids. -/
def new_state (id : S) : S := id

/-- `DFA::has_state`. -/
def has_state (d : DFA S I) (id : S) : Bool := containsKey id d.states

/-- `DFA::add_state`: insert or overwrite the record with an empty
transition table. -/
def add_state (d : DFA S I) (id : S) (accept : Bool) : DFA S I :=
  { d with states := mapInsert id ⟨accept, fun _ => none⟩ d.states }

/-- `DFA::set_current`: keep the id when it is declared, else dead. -/
def set_current (d : DFA S I) (id : S) : DFA S I :=
  { d with current := if d.has_state id then some id else none }

/-- `DFA::get_current`. -/
def get_current (d : DFA S I) : Option S := d.current

/-- `DFA::add_transition`: checks `next` first, then `prev`; on success
overwrites the target for `(prev, input)`.  The second component is the
returned `Result` (`none` = `Ok`); the first is the automaton after the
call (unchanged when an error is returned, since the source returns before
mutating). -/
def add_transition (d : DFA S I) (prev : S) (input : I) (next : S) :
    DFA S I × Option (AutomatonError S) :=
  if ¬ d.has_state next then (d, some (.inexistentState next))
  else
    match alookup prev d.states with
    | none => (d, some (.inexistentState prev))
    | some st =>
        ({ d with
            states := mapInsert prev
              ⟨st.accepts, fun a => if a = input then some next else st.transitions a⟩
              d.states },
          none)

/-- `DFA::accepts`: `none` models the panic of `get_state(current).unwrap()`
on an undeclared current id. -/
def accepts (d : DFA S I) : Option Bool :=
  match d.current with
  | some c => (alookup c d.states).map DState.accepts
  | none => some false

/-- `DFA::step`: dead current is a no-op; otherwise look up the current
record (panic — `none` — if the id is undeclared), follow the stored target
only if it still exists, else become dead. -/
def step (d : DFA S I) (input : I) : Option (DFA S I) :=
  match d.current with
  | none => some d
  | some c =>
      match alookup c d.states with
      | none => none
      | some st =>
          match st.transitions input with
          | some next =>
              some { d with current := if d.has_state next then some next else none }
          | none => some { d with current := none }

/-- The `for input in inputs { self.step(input) }` loop of
`Automaton::run`; a panic propagates. -/
def runSteps (d : DFA S I) : List I → Option (DFA S I)
  | [] => some d
  | a :: w => (d.step a).bind (fun d' => runSteps d' w)

/-- `Automaton::run` for `DFA`: snapshot current, step through the inputs,
read `accepts`, restore the snapshot.  Dead current returns `false` at
once.  Returns the result together with the automaton after the call. -/
def run (d : DFA S I) (w : List I) : Option (Bool × DFA S I) :=
  match d.get_current with
  | some s =>
      (runSteps d w).bind fun d' =>
        (d'.accepts).map fun b => (b, d'.set_current s)
  | none => some (false, d)

/-- `Automaton::with_state` for `DFA`. -/
def with_state (id : S) (accept : Bool) : DFA S I :=
  ((new : DFA S I).add_state id accept).set_current (new_state id)

/-- `Automaton::from_states` for `DFA`. -/
def from_states (initial : S) (sts : List (S × Bool)) : DFA S I :=
  (sts.foldl (fun d p => d.add_state p.1 p.2) new).set_current initial

/-- The transition-adding loop of `Automaton::from_transitions`: aborts on
the first error, keeping the states already added. -/
def addTransitions (d : DFA S I) : List (S × I × S) → DFA S I × Option (AutomatonError S)
  | [] => (d, none)
  | (p, a, n) :: rest =>
      match d.add_transition p a n with
      | (d', none) => addTransitions d' rest
      | (d', some e) => (d', some e)

/-- `Automaton::from_transitions` for `DFA`. -/
def from_transitions (initial : S) (sts : List (S × Bool)) (ts : List (S × I × S)) :
    DFA S I × Option (AutomatonError S) :=
  addTransitions (from_states initial sts) ts

/-- `DFA::from_map`: validates `initial` against the map's keys. -/
def from_map (initial : S) (m : List (S × (Bool × (I → Option S)))) : DFA S I :=
  { current := if containsKey initial m then some initial else none,
    states := m.map (fun p => (p.1, ⟨p.2.1, p.2.2⟩)) }

end DFA

namespace NFA

variable [DecidableEq S] [DecidableEq I]

/-- `Automaton::new` / `Default` for `NFA`: no states, empty current. -/
def new : NFA S I := ⟨∅, []⟩

/-- `Automaton::new_state` for `NFA`: the singleton set. -/
def new_state (id : S) : Finset S := {id}

/-- `NFA::has_state`. -/
def has_state (n : NFA S I) (id : S) : Bool := containsKey id n.states

/-- `NFA::add_state`. -/
def add_state (n : NFA S I) (id : S) (accept : Bool) : NFA S I :=
  { n with states := mapInsert id ⟨accept, fun _ => none⟩ n.states }

/-- `NFA::set_current`: keep the set when every member is declared, else
collapse to the empty (dead) set. -/
def set_current (n : NFA S I) (st : Finset S) : NFA S I :=
  { n with current := if ∀ s ∈ st, n.has_state s then st else ∅ }

/-- `NFA::get_current`: `None` iff the current set is empty. -/
def get_current (n : NFA S I) : Option (Finset S) :=
  if n.current ≠ ∅ then some n.current else none

/-- `NFA::add_transition`: checks `next` first, then `prev`; on success
unions `next` into the target set for `(prev, input)`. -/
def add_transition (n : NFA S I) (prev : S) (input : I) (next : S) :
    NFA S I × Option (AutomatonError S) :=
  if ¬ n.has_state next then (n, some (.inexistentState next))
  else
    match alookup prev n.states with
    | none => (n, some (.inexistentState prev))
    | some st =>
        ({ n with
            states := mapInsert prev
              ⟨st.accepts, fun a =>
                if a = input then
                  match st.transitions input with
                  | some set => some (insert next set)
                  | none => some (new_state next)
                else st.transitions a⟩
              n.states },
          none)

/-- `NFA::accepts`: the short-circuiting
`current.iter().any(|el| get_state(el).unwrap().accepts)`.  When some
accepting declared member exists, an iteration order that reaches it first
returns `true` without unwrapping any undeclared member — the model keeps
that completing execution; when none exists, the `any` exhausts the set,
so an undeclared member (if present) is reached under every iteration
order and `get_state(el).unwrap()` panics (`none`); otherwise `false`. -/
def accepts (n : NFA S I) : Option Bool :=
  if ∃ s ∈ n.current, ((alookup s n.states).map NState.accepts).getD false then
    some true
  else if ∀ s ∈ n.current, n.has_state s then
    some false
  else none

/-- `NFA::step`: the new current is the union over the current members of
their target sets for `input` (absent entries contribute nothing); the
loop reads every member's record, so any undeclared member panics. -/
def step (n : NFA S I) (input : I) : Option (NFA S I) :=
  if ∀ s ∈ n.current, n.has_state s then
    some { n with
      current := n.current.biUnion fun s =>
        ((alookup s n.states).bind (fun st => st.transitions input)).getD ∅ }
  else none

/-- The stepping loop of `Automaton::run` for `NFA`. -/
def runSteps (n : NFA S I) : List I → Option (NFA S I)
  | [] => some n
  | a :: w => (n.step a).bind (fun n' => runSteps n' w)

/-- `Automaton::run` for `NFA`. -/
def run (n : NFA S I) (w : List I) : Option (Bool × NFA S I) :=
  match n.get_current with
  | some s =>
      (runSteps n w).bind fun n' =>
        (n'.accepts).map fun b => (b, n'.set_current s)
  | none => some (false, n)

/-- `Automaton::with_state` for `NFA`. -/
def with_state (id : S) (accept : Bool) : NFA S I :=
  ((new : NFA S I).add_state id accept).set_current (new_state id)

/-- `Automaton::from_states` for `NFA`. -/
def from_states (initial : Finset S) (sts : List (S × Bool)) : NFA S I :=
  (sts.foldl (fun n p => n.add_state p.1 p.2) new).set_current initial

/-- The transition-adding loop of `Automaton::from_transitions`. -/
def addTransitions (n : NFA S I) : List (S × I × S) → NFA S I × Option (AutomatonError S)
  | [] => (n, none)
  | (p, a, nx) :: rest =>
      match n.add_transition p a nx with
      | (n', none) => addTransitions n' rest
      | (n', some e) => (n', some e)

/-- `Automaton::from_transitions` for `NFA`. -/
def from_transitions (initial : Finset S) (sts : List (S × Bool)) (ts : List (S × I × S)) :
    NFA S I × Option (AutomatonError S) :=
  addTransitions (from_states initial sts) ts

/-- `NFA::from_map`: stores `initial` unchecked. -/
def from_map (initial : Finset S) (m : List (S × (Bool × (I → Option (Finset S))))) :
    NFA S I :=
  { current := initial,
    states := m.map (fun p => (p.1, ⟨p.2.1, p.2.2⟩)) }

end NFA

/-! ## The powerset conversion (`impl Into<DFA<BTreeSet<S>, I>> for NFA`)

The source iterates `i` over `1..(1 << states.len())` and, for each `i`,
selects the map entries at the positions `j` of the iteration where
`i & (1 << j) != 0` (here: `i.testBit j`).  From the selected entries it
collects the id set (a canonical `BTreeSet`, here a `Finset`), the
disjunction of the accept flags, and the merged transition map whose entry
for a symbol is present iff some selected entry has one and whose value is
the union of the selected entries' target sets for that symbol.  -/

/-- The entries of `l` selected by the set bits of `i`: the
`.enumerate().filter(|(j, _)| i & (1 << j) != 0)` of the source.  The entry
at position `j` is kept iff `i & (1 << j) != 0`, i.e. iff `i.testBit j`;
recursively, the head (position `0`) is kept iff bit `0` of `i` is set, and
the tail is selected by `i >> 1`. -/
def selEntries (l : List (S × NState S I)) (i : Nat) : List (S × NState S I) :=
  match l with
  | [] => []
  | e :: rest => (if i.testBit 0 then [e] else []) ++ selEntries rest (i / 2)

/-- The same selection written exactly as the source does —
`.iter().enumerate().filter(|(j, _)| i & (1 << j) != 0).map(|(_, el)| el)` —
proved equal to `selEntries` in `selEntries_eq_spec`. -/
def selEntriesSpec (l : List (S × NState S I)) (i : Nat) : List (S × NState S I) :=
  (l.enum.filter (fun p => i &&& (1 <<< p.1) != 0)).map Prod.snd

/-- The `state_set` of the conversion: the selected ids as a canonical set. -/
def convStateSet [DecidableEq S] (l : List (S × NState S I)) (i : Nat) : Finset S :=
  ((selEntries l i).map Prod.fst).toFinset

/-- The `accepts` flag of the conversion: any selected entry accepts. -/
def convAccepts (l : List (S × NState S I)) (i : Nat) : Bool :=
  (selEntries l i).any (fun p => p.2.accepts)

/-- The merged `transition_map` of the conversion, characterised pointwise:
an entry for `a` exists iff some selected entry has one, and is then the
union of the selected entries' target sets for `a`. -/
def convTrans [DecidableEq S] (l : List (S × NState S I)) (i : Nat) :
    I → Option (Finset S) := fun a =>
  if (selEntries l i).any (fun p => (p.2.transitions a).isSome) then
    some ((selEntries l i).foldl (fun acc p => acc ∪ (p.2.transitions a).getD ∅) ∅)
  else none

/-- The `states` map handed to `DFA::from_map` by the conversion. -/
def convStates [DecidableEq S] (l : List (S × NState S I)) :
    List (Finset S × (Bool × (I → Option (Finset S)))) :=
  ((List.range (2 ^ l.length)).drop 1).map
    (fun i => (convStateSet l i, (convAccepts l i, convTrans l i)))

/-- `impl Into<DFA<BTreeSet<S>, I>> for NFA`: build the record for every
`i` in `1..2^n` and finish with `DFA::from_map(current, states)`. -/
def NFA.toDFA [DecidableEq S] [DecidableEq I] (n : NFA S I) : DFA (Finset S) I :=
  DFA.from_map n.current (convStates n.states)

/-- The accept flag the spec assigns to a subset state: true iff some
member of the subset is accepting in the source NFA.  Used to characterise
`convAccepts` independently of the bit index. -/
def powAccepts [DecidableEq S] (l : List (S × NState S I)) (t : Finset S) : Bool :=
  decide (∃ s ∈ t, ((alookup s l).map NState.accepts).getD false)

/-- The transition entry the spec assigns to a subset state: present iff
some member has an entry for the symbol, and then the union of the
members' target sets.  Used to characterise `convTrans` independently of
the bit index. -/
def powTrans [DecidableEq S] (l : List (S × NState S I)) (t : Finset S) (a : I) :
    Option (Finset S) :=
  if ∃ s ∈ t, ((alookup s l).bind (fun st => st.transitions a)).isSome then
    some (t.biUnion fun s => ((alookup s l).bind (fun st => st.transitions a)).getD ∅)
  else none

/-- `impl Into<NFA<S, I>> for DFA`: current becomes the singleton (or
empty) set and each single target becomes a one-element target set, via
`NFA::from_map`. -/
def DFA.toNFA [DecidableEq S] [DecidableEq I] (d : DFA S I) : NFA S I :=
  NFA.from_map
    (match d.current with
     | some c => {c}
     | none => ∅)
    (d.states.map (fun p =>
      (p.1, (p.2.accepts, fun a => (p.2.transitions a).map (fun t => ({t} : Finset S))))))

/-! ## Validity predicates

A `current` that references only declared ids, and transition targets that
reference only declared ids, are the conditions under which the panicking
`unwrap()` calls are unreachable.  They hold for every automaton built
through the contract operations; `from_map` and deserialization can break
them. -/

/-- Every member of the NFA's current set is a declared state. -/
def NFA.currentOk [DecidableEq S] [DecidableEq I] (n : NFA S I) : Prop :=
  ∀ s ∈ n.current, n.has_state s

/-- Every transition target set recorded in a raw NFA state table contains
only declared states. -/
def tableTargetsOk [DecidableEq S] [DecidableEq I] (l : List (S × NState S I)) : Prop :=
  ∀ p ∈ l, ∀ a : I, (p.2.transitions a).getD ∅ ⊆ keysFinset l

/-- Every recorded NFA transition target set contains only declared
states. -/
def NFA.targetsOk [DecidableEq S] [DecidableEq I] (n : NFA S I) : Prop :=
  tableTargetsOk n.states

/-- The DFA's current, when present, is a declared state. -/
def DFA.currentOk [DecidableEq S] [DecidableEq I] (d : DFA S I) : Prop :=
  ∀ s ∈ d.current, d.has_state s

/-- Every recorded DFA transition target is a declared state. -/
def DFA.targetsOk [DecidableEq S] [DecidableEq I] (d : DFA S I) : Prop :=
  ∀ p ∈ d.states, ∀ a : I, ((p.2.transitions a).map (containsKey · d.states)).getD true

instance [DecidableEq S] {V : Type} (l : List (S × V)) : Decidable (keysNodup l) :=
  decidable_of_iff ((keysOf l).Nodup) Iff.rfl

instance [DecidableEq S] [DecidableEq I] (n : NFA S I) : Decidable n.currentOk :=
  decidable_of_iff (∀ s ∈ n.current, n.has_state s = true) Iff.rfl

instance [DecidableEq S] [DecidableEq I] [Fintype I] (l : List (S × NState S I)) :
    Decidable (tableTargetsOk l) :=
  decidable_of_iff (∀ p ∈ l, ∀ a : I, (p.2.transitions a).getD ∅ ⊆ keysFinset l)
    Iff.rfl

instance [DecidableEq S] [DecidableEq I] [Fintype I] (n : NFA S I) :
    Decidable n.targetsOk :=
  decidable_of_iff (tableTargetsOk n.states) Iff.rfl

instance [DecidableEq S] [DecidableEq I] (d : DFA S I) : Decidable d.currentOk :=
  decidable_of_iff (Option.all (fun s => d.has_state s) d.current = true) (by
    cases hc : d.current with
    | none =>
        constructor
        · intro _ s hs
          rw [hc] at hs
          exact absurd hs (by simp)
        · intro _
          rfl
    | some c =>
        constructor
        · intro h s hs
          rw [hc, Option.mem_def, Option.some.injEq] at hs
          rw [← hs]
          exact h
        · intro h
          exact h c (by rw [hc]; rfl))

instance [DecidableEq S] [DecidableEq I] [Fintype I] (d : DFA S I) :
    Decidable d.targetsOk :=
  decidable_of_iff (∀ p ∈ d.states, ∀ a : I,
    ((p.2.transitions a).map (fun t => containsKey t d.states)).getD true = true)
    Iff.rfl

/-! ## The contract operations as data

Used to quantify over "any sequence of public operations". -/

/-- One mutating contract operation, shared shape for both engines.  The
`run` constructor carries the input sequence. -/
inductive Op (S I : Type) where
  | addState (id : S) (accept : Bool)
  | addTransition (prev : S) (input : I) (next : S)
  | setCurrent (st : S ⊕ Finset S)
  | step (input : I)
  | runOp (w : List I)

/-- Apply an operation to a DFA (the `Sum.inr` form of `setCurrent` is an
NFA-shaped current and is ignored by the DFA, which only accepts a bare
id).  A panic leaves no automaton to continue from; `getD`/`elim` keep the
function total, and the theorems only use it from states where no panic is
possible. -/
def DFA.applyOp [DecidableEq S] [DecidableEq I] (d : DFA S I) : Op S I → DFA S I
  | .addState id a => d.add_state id a
  | .addTransition p i nx => (d.add_transition p i nx).1
  | .setCurrent (.inl id) => d.set_current id
  | .setCurrent (.inr _) => d
  | .step a => (d.step a).getD d
  | .runOp w => ((d.run w).map Prod.snd).getD d

/-- Apply an operation to an NFA (the `Sum.inl` form of `setCurrent` is
normalised through `new_state`, as `with_state` does). -/
def NFA.applyOp [DecidableEq S] [DecidableEq I] (n : NFA S I) : Op S I → NFA S I
  | .addState id a => n.add_state id a
  | .addTransition p i nx => (n.add_transition p i nx).1
  | .setCurrent (.inl id) => n.set_current (NFA.new_state id)
  | .setCurrent (.inr st) => n.set_current st
  | .step a => (n.step a).getD n
  | .runOp w => ((n.run w).map Prod.snd).getD n

/-- A sequence of operations, applied in order. -/
def DFA.applyOps [DecidableEq S] [DecidableEq I] (d : DFA S I) (ops : List (Op S I)) :
    DFA S I :=
  ops.foldl DFA.applyOp d

/-- A sequence of operations, applied in order. -/
def NFA.applyOps [DecidableEq S] [DecidableEq I] (n : NFA S I) (ops : List (Op S I)) :
    NFA S I :=
  ops.foldl NFA.applyOp n

/-- A public constructor for a DFA.  `fromTransitions` keeps the automaton
built so far when a transition is rejected (the source returns `Err`, but
the partially built value is what the claim's invariant must hold of). -/
inductive DFACtor (S I : Type) where
  | newC
  | withState (id : S) (accept : Bool)
  | fromStates (initial : S) (sts : List (S × Bool))
  | fromTransitions (initial : S) (sts : List (S × Bool)) (ts : List (S × I × S))
  | fromMap (initial : S) (m : List (S × (Bool × (I → Option S))))

/-- Build the DFA a constructor denotes. -/
def DFACtor.build [DecidableEq S] [DecidableEq I] : DFACtor S I → DFA S I
  | .newC => DFA.new
  | .withState id a => DFA.with_state id a
  | .fromStates init sts => DFA.from_states init sts
  | .fromTransitions init sts ts => (DFA.from_transitions init sts ts).1
  | .fromMap init m => DFA.from_map init m

/-- A public constructor for an NFA, excluding `from_map` (which stores its
initial current unchecked and is treated separately). -/
inductive NFACtor (S I : Type) where
  | newC
  | withState (id : S) (accept : Bool)
  | fromStates (initial : Finset S) (sts : List (S × Bool))
  | fromTransitions (initial : Finset S) (sts : List (S × Bool)) (ts : List (S × I × S))

/-- Build the NFA a constructor denotes. -/
def NFACtor.build [DecidableEq S] [DecidableEq I] : NFACtor S I → NFA S I
  | .newC => NFA.new
  | .withState id a => NFA.with_state id a
  | .fromStates init sts => NFA.from_states init sts
  | .fromTransitions init sts ts => (NFA.from_transitions init sts ts).1

/-- The set an NFA's current set `c` steps to on `a` (the union built by
`NFA::step`): members without a record or without an entry for `a`
contribute nothing. -/
def stepSet [DecidableEq S] [DecidableEq I] (l : List (S × NState S I)) (c : Finset S)
    (a : I) : Finset S :=
  c.biUnion fun s => ((alookup s l).bind (fun st => st.transitions a)).getD ∅

/-- The state table of the converted DFA (the `convStates` pairs wrapped
into `DState` records by `DFA::from_map`). -/
def convDStates [DecidableEq S] [DecidableEq I] (l : List (S × NState S I)) :
    List (Finset S × DState (Finset S) I) :=
  (convStates l).map (fun p => (p.1, ⟨p.2.1, p.2.2⟩))

/-- The converted DFA with the dead/live current shape made explicit:
`none` exactly when the tracked NFA current set is empty. -/
def convD [DecidableEq S] [DecidableEq I] (l : List (S × NState S I)) (c : Finset S) :
    DFA (Finset S) I :=
  ⟨if c = ∅ then none else some c, convDStates l⟩

/-- The record a DFA state turns into under the DFA→NFA lift: same accept
flag, each single target lifted to a one-element target set. -/
def liftNState [DecidableEq S] [DecidableEq I] (r : DState S I) : NState S I :=
  ⟨r.accepts, fun a => (r.transitions a).map (fun t => ({t} : Finset S))⟩

/-- The current set the DFA→NFA lift produces: the singleton of the current
id, or the empty set when dead. -/
def liftCur {S : Type} : Option S → Finset S
  | some c => {c}
  | none => ∅

/-! ## Concrete instances

Small automata over `S := Nat`, `I := Bool` used to instantiate the
theorems and to exhibit the behaviours of corrupt (`from_map`-built or
deserialized) automata. -/

/-- A well-formed one-state DFA: state `0` accepts and loops on `true`. -/
def wfDFA : DFA Nat Bool :=
  ⟨some 0, [(0, ⟨true, fun a => if a then some 0 else none⟩)]⟩

/-- A well-formed one-state NFA: state `0` accepts and loops on `true`. -/
def wfNFA : NFA Nat Bool :=
  ⟨{0}, [(0, ⟨true, fun a => if a then some ({0} : Finset Nat) else none⟩)]⟩

/-- A DFA in the dead configuration. -/
def deadDFA : DFA Nat Bool := ⟨none, [(0, ⟨true, fun _ => none⟩)]⟩

/-- An NFA in the dead configuration. -/
def deadNFA : NFA Nat Bool := ⟨∅, [(0, ⟨true, fun _ => none⟩)]⟩

/-- An NFA as produced by `NFA::from_map` (or deserialization) whose
current set references an undeclared id. -/
def corruptNFA : NFA Nat Bool :=
  NFA.from_map {0} ([] : List (Nat × (Bool × (Bool → Option (Finset Nat)))))

/-- An NFA whose current set mixes the accepting declared state `0` with
the undeclared id `7`, as `NFA::from_map` (or deserialization) can
produce. -/
def mixedNFA : NFA Nat Bool :=
  NFA.from_map {0, 7} [(0, (true, fun _ => (none : Option (Finset Nat))))]

/-- An NFA whose nonempty current set references only undeclared ids. -/
def strayCurNFA : NFA Nat Bool :=
  NFA.from_map {1} [(0, (true, fun _ => (none : Option (Finset Nat))))]

/-- A DFA with a dangling transition target `1`, as `DFA::from_map` (or
deserialization) can produce. -/
def danglingDFA : DFA Nat Bool :=
  DFA.from_map 0 [(0, (false, fun a => if a then some 1 else (none : Option Nat)))]

/-! ## Association-list lemmas -/

section MapLemmas

variable [DecidableEq S] {V W : Type}

theorem containsKey_iff_mem_keysFinset (k : S) (l : List (S × V)) :
    containsKey k l = true ↔ k ∈ keysFinset l := by
  induction l with
  | nil => simp [containsKey, alookup, keysFinset, keysOf]
  | cons e rest ih =>
      obtain ⟨k', v⟩ := e
      by_cases h : k' = k
      · simp [containsKey, alookup, keysFinset, keysOf, h]
      · simpa [containsKey, alookup, keysFinset, keysOf, h, Ne.symm h] using ih

theorem alookup_mapInsert_self (k : S) (v : V) (l : List (S × V)) :
    alookup k (mapInsert k v l) = some v := by
  induction l with
  | nil => simp [mapInsert, alookup]
  | cons e rest ih =>
      obtain ⟨k', v'⟩ := e
      by_cases h : k' = k <;> simp [mapInsert, alookup, h, ih]

theorem alookup_mapInsert_of_ne {k k' : S} (h : k ≠ k') (v : V) (l : List (S × V)) :
    alookup k' (mapInsert k v l) = alookup k' l := by
  induction l with
  | nil => simp [mapInsert, alookup, h]
  | cons e rest ih =>
      obtain ⟨k'', v'⟩ := e
      by_cases h2 : k'' = k
      · subst h2
        simp [mapInsert, alookup, h]
      · by_cases h3 : k'' = k' <;> simp [mapInsert, alookup, h2, h3, Ne.symm h, ih]

theorem keysFinset_mapInsert (k : S) (v : V) (l : List (S × V)) :
    keysFinset (mapInsert k v l) = insert k (keysFinset l) := by
  induction l with
  | nil => simp [mapInsert, keysFinset, keysOf]
  | cons e rest ih =>
      obtain ⟨k', v'⟩ := e
      by_cases h : k' = k
      · subst h
        simp [mapInsert, keysFinset, keysOf]
      · simp only [mapInsert, if_neg h, keysFinset, keysOf, List.map_cons,
          List.toFinset_cons] at ih ⊢
        rw [ih, Finset.Insert.comm]

theorem keysNodup_mapInsert (k : S) (v : V) {l : List (S × V)} (h : keysNodup l) :
    keysNodup (mapInsert k v l) := by
  induction l with
  | nil => simp [mapInsert, keysNodup, keysOf]
  | cons e rest ih =>
      obtain ⟨k', v'⟩ := e
      simp only [keysNodup, keysOf, List.map_cons, List.nodup_cons] at h
      by_cases h2 : k' = k
      · subst h2
        simpa [mapInsert, keysNodup, keysOf] using h
      · have tail := ih h.2
        simp only [mapInsert, if_neg h2, keysNodup, keysOf, List.map_cons,
          List.nodup_cons] at tail ⊢
        refine ⟨?_, tail⟩
        intro hmem
        have hfin : k' ∈ keysFinset (mapInsert k v rest) := by
          simpa [keysFinset, keysOf, List.mem_toFinset] using hmem
        rw [keysFinset_mapInsert] at hfin
        rcases Finset.mem_insert.1 hfin with h3 | h3
        · exact h2 h3
        · exact h.1 (by simpa [keysFinset, keysOf, List.mem_toFinset] using h3)

theorem mem_of_alookup_eq_some {k : S} {v : V} {l : List (S × V)}
    (h : alookup k l = some v) : (k, v) ∈ l := by
  induction l with
  | nil => simp [alookup] at h
  | cons e rest ih =>
      obtain ⟨k', v'⟩ := e
      by_cases h2 : k' = k
      · subst h2
        simp only [alookup, if_pos rfl, Option.some.injEq] at h
        rw [if_pos trivial, Option.some.injEq] at h
        subst h
        exact List.mem_cons_self _ _
      · simp only [alookup, if_neg h2] at h
        exact List.mem_cons_of_mem _ (ih h)

theorem alookup_of_mem_nodup {k : S} {v : V} {l : List (S × V)}
    (hn : keysNodup l) (h : (k, v) ∈ l) : alookup k l = some v := by
  induction l with
  | nil => simp at h
  | cons e rest ih =>
      obtain ⟨k', v'⟩ := e
      simp only [keysNodup, keysOf, List.map_cons, List.nodup_cons] at hn
      rcases List.mem_cons.1 h with h2 | h2
      · rw [Prod.mk.injEq] at h2
        obtain ⟨h4, h5⟩ := h2
        subst h4
        subst h5
        simp [alookup]
      · by_cases h3 : k' = k
        · subst h3
          exact absurd (by
            simpa [keysOf] using List.mem_map_of_mem Prod.fst h2) hn.1
        · simpa [alookup, h3] using ih hn.2 h2

theorem containsKey_of_mem {k : S} {v : V} {l : List (S × V)}
    (h : (k, v) ∈ l) : containsKey k l = true := by
  rw [containsKey_iff_mem_keysFinset]
  simpa [keysFinset, keysOf, List.mem_toFinset] using List.mem_map_of_mem Prod.fst h

theorem alookup_map_value (f : V → W) (k : S) (l : List (S × V)) :
    alookup k (l.map (fun p => (p.1, f p.2))) = (alookup k l).map f := by
  induction l with
  | nil => simp [alookup]
  | cons e rest ih =>
      obtain ⟨k', v⟩ := e
      by_cases h : k' = k <;> simp [alookup, h, ih]

theorem alookup_map_fn {A : Type} (key : A → S) (val : A → V) (k : S) (l : List A) :
    alookup k (l.map (fun x => (key x, val x)))
      = (l.find? (fun x => decide (key x = k))).map val := by
  induction l with
  | nil => simp [alookup]
  | cons x rest ih =>
      by_cases h : key x = k
      · simp [alookup, h, List.find?_cons_of_pos]
      · rw [List.map_cons, List.find?_cons_of_neg _ (by simpa using h)]
        simpa [alookup, h] using ih

end MapLemmas

/-! ## Powerset-enumeration lemmas -/

section ConvLemmas

variable [DecidableEq S] [DecidableEq I]

theorem selEntries_zero (l : List (S × NState S I)) : selEntries l 0 = [] := by
  induction l with
  | nil => rfl
  | cons e rest ih => simp [selEntries, Nat.zero_testBit, ih]

theorem and_shiftLeft_one_ne_zero (i k : Nat) :
    (i &&& (1 <<< k) != 0) = i.testBit k := by
  rw [Nat.shiftLeft_eq, one_mul, Nat.and_two_pow]
  cases h : i.testBit k <;> simp [h]

theorem selEntries_enumFrom (l : List (S × NState S I)) (i : Nat) : ∀ k : Nat,
    selEntries l (i >>> k)
      = ((l.enumFrom k).filter (fun p => i &&& (1 <<< p.1) != 0)).map Prod.snd := by
  induction l with
  | nil => intro k; rfl
  | cons e rest ih =>
      intro k
      show (if (i >>> k).testBit 0 then [e] else []) ++ selEntries rest ((i >>> k) / 2)
        = (((k, e) :: rest.enumFrom (k + 1)).filter
            (fun p => i &&& (1 <<< p.1) != 0)).map Prod.snd
      have hdiv : (i >>> k) / 2 = i >>> (k + 1) := by
        rw [Nat.shiftRight_add]
        rfl
      have hbit : (i >>> k).testBit 0 = i.testBit k := by
        rw [Nat.testBit, Nat.testBit, Nat.shiftRight_zero]
      rw [hdiv, ih (k + 1), List.filter_cons]
      by_cases h : i.testBit k = true
      · rw [if_pos (show (i >>> k).testBit 0 = true by rw [hbit]; exact h),
          if_pos (show (i &&& (1 <<< k) != 0) = true by
            rw [and_shiftLeft_one_ne_zero]; exact h)]
        rfl
      · rw [if_neg (show ¬ (i >>> k).testBit 0 = true by rw [hbit]; exact h),
          if_neg (show ¬ (i &&& (1 <<< k) != 0) = true by
            rw [and_shiftLeft_one_ne_zero]; exact h)]
        rfl

theorem selEntries_eq_spec (l : List (S × NState S I)) (i : Nat) :
    selEntries l i = selEntriesSpec l i := by
  have := selEntries_enumFrom l i 0
  rw [Nat.shiftRight_zero] at this
  exact this

theorem selEntries_sublist (l : List (S × NState S I)) (i : Nat) :
    (selEntries l i).Sublist l := by
  induction l generalizing i with
  | nil => simp [selEntries]
  | cons e rest ih =>
      by_cases h : i.testBit 0
      · simpa [selEntries, h] using (ih (i / 2)).cons₂ e
      · simp only [selEntries, if_neg h, List.nil_append]
        exact (ih (i / 2)).cons e

theorem convStateSet_cons (e : S × NState S I) (rest : List (S × NState S I)) (i : Nat) :
    convStateSet (e :: rest) i
      = (if i.testBit 0 then ({e.1} : Finset S) else ∅) ∪ convStateSet rest (i / 2) := by
  by_cases h : i.testBit 0 <;>
    simp [convStateSet, selEntries, h, Finset.insert_eq]

theorem mem_convStateSet {l : List (S × NState S I)} {i : Nat} {s : S} :
    s ∈ convStateSet l i ↔ ∃ r, (s, r) ∈ selEntries l i := by
  simp only [convStateSet, List.mem_toFinset, List.mem_map]
  constructor
  · rintro ⟨⟨s', r⟩, hmem, rfl⟩
    exact ⟨r, hmem⟩
  · rintro ⟨r, hmem⟩
    exact ⟨(s, r), hmem, rfl⟩

theorem convStateSet_subset_keys (l : List (S × NState S I)) (i : Nat) :
    convStateSet l i ⊆ keysFinset l := by
  intro s hs
  rcases mem_convStateSet.1 hs with ⟨r, hmem⟩
  have : (s, r) ∈ l := (selEntries_sublist l i).mem hmem
  simpa [keysFinset, keysOf, List.mem_toFinset] using List.mem_map_of_mem Prod.fst this

theorem convStateSet_nonempty {l : List (S × NState S I)} {i : Nat}
    (h1 : 0 < i) (h2 : i < 2 ^ l.length) : (convStateSet l i).Nonempty := by
  induction l generalizing i with
  | nil => simp at h2; omega
  | cons e rest ih =>
      by_cases h : i.testBit 0
      · exact ⟨e.1, by simp [convStateSet_cons, h]⟩
      · have hmod : i % 2 = 0 := by
          have := Nat.testBit_zero i
          rw [this] at h
          simpa using h
        have hpos : 0 < i / 2 := by omega
        have hlt : i / 2 < 2 ^ rest.length := by
          have : (2 : Nat) ^ (e :: rest).length = 2 ^ rest.length * 2 := by
            simp [List.length_cons, pow_succ]
          rw [this] at h2
          omega
        rcases ih hpos hlt with ⟨s, hs⟩
        exact ⟨s, by simp [convStateSet_cons, h, hs]⟩

theorem exists_index {l : List (S × NState S I)} (hn : keysNodup l) {t : Finset S}
    (hsub : t ⊆ keysFinset l) (hne : t.Nonempty) :
    ∃ i, 0 < i ∧ i < 2 ^ l.length ∧ convStateSet l i = t := by
  induction l generalizing t with
  | nil =>
      rcases hne with ⟨s, hs⟩
      exact absurd (hsub hs) (by simp [keysFinset, keysOf])
  | cons e rest ih =>
      have hn0 : (e.1 :: keysOf rest).Nodup := by simpa [keysNodup, keysOf] using hn
      have hn' : keysNodup rest := (List.nodup_cons.1 hn0).2
      have hsub' : t.erase e.1 ⊆ keysFinset rest := by
        intro x hx
        have hxt := Finset.mem_of_mem_erase hx
        have hxe := Finset.ne_of_mem_erase hx
        have := hsub hxt
        simp only [keysFinset, keysOf, List.map_cons, List.toFinset_cons,
          Finset.mem_insert] at this
        rcases this with h3 | h3
        · exact absurd h3 hxe
        · simpa [keysFinset, keysOf] using h3
      by_cases hte : (t.erase e.1).Nonempty
      · rcases ih hn' hsub' hte with ⟨i', hi1, hi2, hi3⟩
        refine ⟨(if e.1 ∈ t then 1 else 0) + 2 * i', by positivity, ?_, ?_⟩
        · rw [List.length_cons, pow_succ]
          by_cases hm : e.1 ∈ t
          · rw [if_pos hm]
            omega
          · rw [if_neg hm]
            omega
        · have hbit : ((if e.1 ∈ t then 1 else 0) + 2 * i').testBit 0
              = decide (e.1 ∈ t) := by
            rw [Nat.testBit_zero]
            by_cases hm : e.1 ∈ t
            · rw [if_pos hm]
              simp [hm]
            · rw [if_neg hm]
              simp [hm]
          have hdiv : ((if e.1 ∈ t then 1 else 0) + 2 * i') / 2 = i' := by
            by_cases hm : e.1 ∈ t
            · rw [if_pos hm]
              omega
            · rw [if_neg hm]
              omega
          rw [convStateSet_cons, hbit, hdiv, hi3]
          by_cases hm : e.1 ∈ t
          · rw [if_pos (by simpa using hm), ← Finset.insert_eq,
              Finset.insert_erase hm]
          · rw [if_neg (by simpa using hm), Finset.empty_union,
              Finset.erase_eq_of_not_mem hm]
      · have ht : t = {e.1} := by
          rw [Finset.not_nonempty_iff_eq_empty] at hte
          rcases (Finset.erase_eq_empty_iff t e.1).1 hte with h3 | h3
          · exact absurd (h3 ▸ hne) (by simp)
          · exact h3
        refine ⟨1, one_pos, ?_, ?_⟩
        · have hp : (0 : Nat) < 2 ^ rest.length := Nat.pos_pow_of_pos _ (by omega)
          rw [List.length_cons, pow_succ]
          omega
        · rw [convStateSet_cons]
          have hz : convStateSet rest ((1 : Nat) / 2) = ∅ := by
            rw [(by decide : (1 : Nat) / 2 = 0)]
            simp [convStateSet, selEntries_zero]
          rw [hz]
          simp [ht, (by decide : (1 : Nat).testBit 0 = true)]

theorem keysNodup_selEntries {l : List (S × NState S I)} (hn : keysNodup l) (i : Nat) :
    keysNodup (selEntries l i) :=
  List.Nodup.sublist ((selEntries_sublist l i).map Prod.fst) hn

theorem mem_selEntries_iff {l : List (S × NState S I)} (hn : keysNodup l) {i : Nat}
    {s : S} {r : NState S I} :
    (s, r) ∈ selEntries l i ↔ s ∈ convStateSet l i ∧ alookup s l = some r := by
  constructor
  · intro h
    exact ⟨mem_convStateSet.2 ⟨r, h⟩,
      alookup_of_mem_nodup hn ((selEntries_sublist l i).mem h)⟩
  · rintro ⟨hs, hl⟩
    rcases mem_convStateSet.1 hs with ⟨r', hr'⟩
    have : alookup s l = some r' :=
      alookup_of_mem_nodup hn ((selEntries_sublist l i).mem hr')
    rw [this] at hl
    cases hl
    exact hr'

theorem convAccepts_char {l : List (S × NState S I)} (hn : keysNodup l) (i : Nat) :
    convAccepts l i = powAccepts l (convStateSet l i) := by
  rw [Bool.eq_iff_iff]
  simp only [convAccepts, powAccepts, List.any_eq_true, decide_eq_true_eq]
  constructor
  · rintro ⟨⟨s, r⟩, hmem, hacc⟩
    rcases (mem_selEntries_iff hn).1 hmem with ⟨hs, hl⟩
    refine ⟨s, hs, ?_⟩
    simp only [hl, Option.map_some', Option.getD_some]
    exact hacc
  · rintro ⟨s, hs, hacc⟩
    cases hlk : alookup s l with
    | none => rw [hlk] at hacc; simp at hacc
    | some r =>
        rw [hlk] at hacc
        simp only [Option.map_some', Option.getD_some] at hacc
        exact ⟨(s, r), (mem_selEntries_iff hn).2 ⟨hs, hlk⟩, hacc⟩

theorem mem_foldl_union {A : Type} (f : A → Finset S) (l : List A) (acc : Finset S)
    (x : S) : x ∈ l.foldl (fun acc p => acc ∪ f p) acc ↔ x ∈ acc ∨ ∃ p ∈ l, x ∈ f p := by
  induction l generalizing acc with
  | nil => simp
  | cons y rest ih =>
      rw [List.foldl_cons, ih]
      simp only [Finset.mem_union, List.mem_cons]
      constructor
      · rintro (⟨h | h⟩ | ⟨p, hp, hx⟩)
        · exact Or.inl h
        · exact Or.inr ⟨y, Or.inl rfl, h⟩
        · exact Or.inr ⟨p, Or.inr hp, hx⟩
      · rintro (h | ⟨p, hp | hp, hx⟩)
        · exact Or.inl (Or.inl h)
        · subst hp
          exact Or.inl (Or.inr hx)
        · exact Or.inr ⟨p, hp, hx⟩

theorem convTrans_char {l : List (S × NState S I)} (hn : keysNodup l) (i : Nat) (a : I) :
    convTrans l i a = powTrans l (convStateSet l i) a := by
  have hcond : (selEntries l i).any (fun p => (p.2.transitions a).isSome) = true
      ↔ ∃ s ∈ convStateSet l i,
          ((alookup s l).bind (fun st => st.transitions a)).isSome = true := by
    simp only [List.any_eq_true]
    constructor
    · rintro ⟨⟨s, r⟩, hmem, hsome⟩
      rcases (mem_selEntries_iff hn).1 hmem with ⟨hs, hl⟩
      refine ⟨s, hs, ?_⟩
      rw [hl, Option.some_bind]
      exact hsome
    · rintro ⟨s, hs, hsome⟩
      cases hlk : alookup s l with
      | none => rw [hlk] at hsome; simp at hsome
      | some r =>
          rw [hlk, Option.some_bind] at hsome
          exact ⟨(s, r), (mem_selEntries_iff hn).2 ⟨hs, hlk⟩, hsome⟩
  by_cases hc : (selEntries l i).any (fun p => (p.2.transitions a).isSome) = true
  · rw [convTrans, if_pos hc, powTrans, if_pos (by
      simpa using hcond.1 hc)]
    congr 1
    ext x
    rw [mem_foldl_union]
    simp only [Finset.not_mem_empty, false_or, Finset.mem_biUnion]
    constructor
    · rintro ⟨⟨s, r⟩, hmem, hx⟩
      rcases (mem_selEntries_iff hn).1 hmem with ⟨hs, hl⟩
      exact ⟨s, hs, by simpa [hl] using hx⟩
    · rintro ⟨s, hs, hx⟩
      cases hlk : alookup s l with
      | none => simp [hlk] at hx
      | some r =>
          refine ⟨(s, r), (mem_selEntries_iff hn).2 ⟨hs, hlk⟩, ?_⟩
          simpa [hlk] using hx
  · rw [convTrans, if_neg hc, powTrans, if_neg (by
      intro hcontra
      exact hc (hcond.2 (by simpa using hcontra)))]

theorem mem_range_drop_one (m i : Nat) :
    i ∈ (List.range m).drop 1 ↔ 1 ≤ i ∧ i < m := by
  cases m with
  | zero => simp
  | succ k =>
      rw [List.range_succ_eq_map]
      simp only [List.drop_succ_cons, List.drop_zero, List.mem_map, List.mem_range]
      constructor
      · rintro ⟨j, hj, rfl⟩
        omega
      · rintro ⟨h1, h2⟩
        exact ⟨i - 1, by omega, by omega⟩

theorem convStates_alookup {l : List (S × NState S I)} (hn : keysNodup l)
    (t : Finset S) :
    alookup t (convStates l)
      = if t.Nonempty ∧ t ⊆ keysFinset l
        then some (powAccepts l t, powTrans l t) else none := by
  rw [convStates, alookup_map_fn]
  by_cases hc : t.Nonempty ∧ t ⊆ keysFinset l
  · rcases exists_index hn hc.2 hc.1 with ⟨i0, hi1, hi2, hi3⟩
    have hmem : i0 ∈ (List.range (2 ^ l.length)).drop 1 :=
      (mem_range_drop_one _ _).2 ⟨hi1, hi2⟩
    have hsome : ((List.range (2 ^ l.length)).drop 1).find?
        (fun i => decide (convStateSet l i = t)) |>.isSome := by
      rw [List.find?_isSome]
      refine ⟨i0, hmem, ?_⟩
      show decide (convStateSet l i0 = t) = true
      simpa using hi3
    rcases Option.isSome_iff_exists.1 hsome with ⟨i1, hi1'⟩
    have hpred := List.find?_some hi1'
    have hset : convStateSet l i1 = t := by simpa using hpred
    rw [hi1', if_pos hc]
    simp only [Option.map_some']
    congr 1
    rw [Prod.mk.injEq]
    refine ⟨by rw [convAccepts_char hn, hset], ?_⟩
    funext a
    rw [convTrans_char hn, hset]
  · rw [if_neg hc]
    have : ((List.range (2 ^ l.length)).drop 1).find?
        (fun i => decide (convStateSet l i = t)) = none := by
      rw [List.find?_eq_none]
      intro i hi
      rcases (mem_range_drop_one _ _).1 hi with ⟨h1, h2⟩
      simp only [decide_eq_true_eq]
      intro hset
      exact hc ⟨hset ▸ convStateSet_nonempty h1 h2,
        hset ▸ convStateSet_subset_keys l i⟩
    rw [this]
    rfl

end ConvLemmas

/-! ## Simulation between an NFA and its powerset DFA -/

section SimLemmas

variable [DecidableEq S] [DecidableEq I] {l : List (S × NState S I)}

theorem stepSet_subset (hT : tableTargetsOk l) (c : Finset S) (a : I) :
    stepSet l c a ⊆ keysFinset l := by
  intro x hx
  rcases Finset.mem_biUnion.1 hx with ⟨s, hs, hmem⟩
  cases hlk : alookup s l with
  | none => rw [hlk] at hmem; simp at hmem
  | some r =>
      rw [hlk, Option.some_bind] at hmem
      have : (r.transitions a).getD ∅ ⊆ keysFinset l :=
        hT (s, r) (mem_of_alookup_eq_some hlk) a
      exact this hmem

theorem convDFA_alookup (hn : keysNodup l) (t : Finset S) :
    alookup t (convDStates l)
      = if t.Nonempty ∧ t ⊆ keysFinset l
        then some ⟨powAccepts l t, powTrans l t⟩ else none := by
  rw [convDStates,
    alookup_map_value
      (fun v : Bool × (I → Option (Finset S)) => (⟨v.1, v.2⟩ : DState (Finset S) I)) t
      (convStates l),
    convStates_alookup hn]
  by_cases hc : t.Nonempty ∧ t ⊆ keysFinset l <;> simp [hc]

theorem convDFA_containsKey (hn : keysNodup l) (t : Finset S) :
    containsKey t (convDStates l) = true ↔ t.Nonempty ∧ t ⊆ keysFinset l := by
  rw [containsKey, convDFA_alookup hn]
  by_cases hc : t.Nonempty ∧ t ⊆ keysFinset l <;> simp [hc]

theorem toDFA_eq_convD (hn : keysNodup l) {c : Finset S} (hc : c ⊆ keysFinset l) :
    NFA.toDFA ⟨c, l⟩ = convD l c := by
  have hkey : containsKey c (convStates l) = true ↔ c.Nonempty ∧ c ⊆ keysFinset l := by
    rw [containsKey, convStates_alookup hn]
    by_cases h : c.Nonempty ∧ c ⊆ keysFinset l <;> simp [h]
  show DFA.from_map c (convStates l) = convD l c
  rw [DFA.from_map, convD]
  by_cases hne : c = ∅
  · subst hne
    have hck : containsKey (∅ : Finset S) (convStates l) = false := by
      cases hck : containsKey (∅ : Finset S) (convStates l)
      · rfl
      · rcases hkey.1 hck with ⟨h1, _⟩
        exact absurd rfl h1.ne_empty
    simp [hck, convDStates]
  · have hck : containsKey c (convStates l) = true :=
      hkey.2 ⟨Finset.nonempty_iff_ne_empty.2 hne, hc⟩
    simp [hck, hne, convDStates]

theorem dfaStep_of_current_none {d : DFA S I} (h : d.current = none) (a : I) :
    d.step a = some d := by
  simp [DFA.step, h]

theorem dfaStep_of_lookup_none {d : DFA S I} {c : S} (h : d.current = some c)
    (h2 : alookup c d.states = none) (a : I) : d.step a = none := by
  simp [DFA.step, h, h2]

theorem dfaStep_of_trans_none {d : DFA S I} {c : S} {st : DState S I} {a : I}
    (h : d.current = some c) (h2 : alookup c d.states = some st)
    (h3 : st.transitions a = none) : d.step a = some { d with current := none } := by
  simp [DFA.step, h, h2, h3]

theorem dfaStep_of_trans_some {d : DFA S I} {c : S} {st : DState S I} {a : I} {next : S}
    (h : d.current = some c) (h2 : alookup c d.states = some st)
    (h3 : st.transitions a = some next) :
    d.step a = some { d with current := if d.has_state next then some next else none } := by
  simp [DFA.step, h, h2, h3]

theorem conv_step_dfa (hn : keysNodup l) (hT : tableTargetsOk l) {c : Finset S}
    (hc : c ⊆ keysFinset l) (a : I) :
    DFA.step (convD l c) a = some (convD l (stepSet l c a)) := by
  by_cases hne : c = ∅
  · subst hne
    have h1 : stepSet l ∅ a = ∅ := by simp [stepSet]
    have h2 : (convD l ∅).current = none := by simp [convD]
    rw [dfaStep_of_current_none h2 a, h1]
  · have hnemp : c.Nonempty := Finset.nonempty_iff_ne_empty.2 hne
    have hcur : (convD l c).current = some c := by simp [convD, hne]
    have hlk : alookup c (convD l c).states = some ⟨powAccepts l c, powTrans l c⟩ := by
      show alookup c (convDStates l) = _
      rw [convDFA_alookup hn, if_pos ⟨hnemp, hc⟩]
    have hTsub : stepSet l c a ⊆ keysFinset l := stepSet_subset hT c a
    cases h3 : powTrans l c a with
    | none =>
        have hempty : stepSet l c a = ∅ := by
          rw [powTrans] at h3
          by_cases hcond : ∃ s ∈ c, ((alookup s l).bind (fun st => st.transitions a)).isSome
          · rw [if_pos hcond] at h3
            cases h3
          · rw [Finset.eq_empty_iff_forall_not_mem]
            intro x hx
            rcases Finset.mem_biUnion.1 hx with ⟨s, hs, hmem⟩
            cases hbind : (alookup s l).bind (fun st => st.transitions a) with
            | none => rw [hbind] at hmem; simp at hmem
            | some T' => exact hcond ⟨s, hs, by rw [hbind]; rfl⟩
        rw [dfaStep_of_trans_none hcur hlk h3, hempty]
        show some ⟨none, convDStates l⟩ = some (convD l ∅)
        rw [convD, if_pos rfl]
    | some T =>
        have hTset : T = stepSet l c a := by
          rw [powTrans] at h3
          by_cases hcond : ∃ s ∈ c, ((alookup s l).bind (fun st => st.transitions a)).isSome
          · rw [if_pos hcond, Option.some.injEq] at h3
            exact h3.symm
          · rw [if_neg hcond] at h3
            cases h3
        rw [dfaStep_of_trans_some hcur hlk h3, ← hTset]
        congr 1
        show (⟨if (convD l c).has_state T then some T else none, convDStates l⟩ :
          DFA (Finset S) I) = convD l T
        have hTsub' : T ⊆ keysFinset l := by rw [hTset]; exact hTsub
        have hhs : (convD l c).has_state T = containsKey T (convDStates l) := rfl
        by_cases hTe : T = ∅
        · subst hTe
          have hrhs : convD l (∅ : Finset S) = ⟨none, convDStates l⟩ := by
            simp [convD]
          have hfalse : containsKey (∅ : Finset S) (convDStates l) = false := by
            cases hcck : containsKey (∅ : Finset S) (convDStates l)
            · rfl
            · rcases (convDFA_containsKey hn (∅ : Finset S)).1 hcck with ⟨h1, _⟩
              exact absurd rfl h1.ne_empty
          rw [hrhs, hhs, hfalse]
          simp
        · have hrhs : convD l T = ⟨some T, convDStates l⟩ := by
            simp [convD, hTe]
          have htrue : containsKey T (convDStates l) = true :=
            (convDFA_containsKey hn T).2 ⟨Finset.nonempty_iff_ne_empty.2 hTe, hTsub'⟩
          rw [hrhs, hhs, htrue]
          simp

theorem nfa_guard_of_subset {c : Finset S} (hc : c ⊆ keysFinset l) :
    ∀ s ∈ c, (NFA.mk c l : NFA S I).has_state s := by
  intro s hs
  show containsKey s l = true
  exact (containsKey_iff_mem_keysFinset s l).2 (hc hs)

theorem conv_step_nfa {c : Finset S} (hc : c ⊆ keysFinset l) (a : I) :
    NFA.step ⟨c, l⟩ a = some ⟨stepSet l c a, l⟩ := by
  rw [NFA.step, if_pos (nfa_guard_of_subset hc)]
  rfl

theorem conv_runSteps (hn : keysNodup l) (hT : tableTargetsOk l) :
    ∀ (w : List I) (c : Finset S), c ⊆ keysFinset l →
      ∃ c', c' ⊆ keysFinset l ∧ NFA.runSteps ⟨c, l⟩ w = some ⟨c', l⟩ ∧
        DFA.runSteps (convD l c) w = some (convD l c') := by
  intro w
  induction w with
  | nil => exact fun c hc => ⟨c, hc, rfl, rfl⟩
  | cons a w ih =>
      intro c hc
      rcases ih (stepSet l c a) (stepSet_subset hT c a) with ⟨c', hc', hn', hd'⟩
      refine ⟨c', hc', ?_, ?_⟩
      · rw [NFA.runSteps, conv_step_nfa hc a, Option.some_bind]
        exact hn'
      · rw [DFA.runSteps, conv_step_dfa hn hT hc a, Option.some_bind]
        exact hd'

theorem conv_accepts_nfa {c : Finset S} (hc : c ⊆ keysFinset l) :
    NFA.accepts ⟨c, l⟩ = some (powAccepts l c) := by
  rw [NFA.accepts]
  by_cases hex : ∃ s ∈ c, ((alookup s l).map NState.accepts).getD false = true
  · rw [if_pos hex]
    rw [show powAccepts l c = true from decide_eq_true hex]
  · rw [if_neg hex, if_pos (nfa_guard_of_subset hc)]
    rw [show powAccepts l c = false from decide_eq_false hex]

theorem conv_accepts_dfa (hn : keysNodup l) {c : Finset S} (hc : c ⊆ keysFinset l) :
    DFA.accepts (convD l c) = some (powAccepts l c) := by
  by_cases hne : c = ∅
  · subst hne
    have h1 : powAccepts l (∅ : Finset S) = false := by simp [powAccepts]
    have hrhs : convD l (∅ : Finset S) = ⟨none, convDStates l⟩ := by simp [convD]
    rw [hrhs, h1]
    rfl
  · have hcur : (convD l c).current = some c := by simp [convD, hne]
    have hlk : alookup c (convD l c).states = some ⟨powAccepts l c, powTrans l c⟩ := by
      show alookup c (convDStates l) = _
      rw [convDFA_alookup hn, if_pos ⟨Finset.nonempty_iff_ne_empty.2 hne, hc⟩]
    simp only [DFA.accepts, hcur, hlk, Option.map_some']

theorem conv_run (hn : keysNodup l) (hT : tableTargetsOk l) {c : Finset S}
    (hc : c ⊆ keysFinset l) (w : List I) :
    (NFA.run ⟨c, l⟩ w).map Prod.fst
      = (DFA.run (NFA.toDFA ⟨c, l⟩) w).map Prod.fst := by
  rw [toDFA_eq_convD hn hc]
  by_cases hne : c = ∅
  · subst hne
    have h1 : NFA.get_current ⟨(∅ : Finset S), l⟩ = none := by
      simp [NFA.get_current]
    have h2 : DFA.get_current (convD l (∅ : Finset S)) = none := by
      simp [convD, DFA.get_current]
    simp only [NFA.run, h1, DFA.run, h2, Option.map_some']
  · have hg1 : NFA.get_current ⟨c, l⟩ = some c := by
      simp [NFA.get_current, hne]
    have hg2 : DFA.get_current (convD l c) = some c := by
      simp [convD, DFA.get_current, hne]
    rcases conv_runSteps hn hT w c hc with ⟨c', hc', hns, hds⟩
    simp only [NFA.run, hg1, DFA.run, hg2, hns, hds, Option.some_bind,
      conv_accepts_nfa hc', conv_accepts_dfa hn hc', Option.map_some']

end SimLemmas

/-! ## Operation lemmas: DFA -/

section DFAOpLemmas

variable [DecidableEq S] [DecidableEq I]

theorem dfa_accepts_isSome {d : DFA S I} (h : d.currentOk) : (d.accepts).isSome := by
  cases hc : d.current with
  | none => simp [DFA.accepts, hc]
  | some c =>
      have h2 : containsKey c d.states = true := h c (by simp [hc])
      rw [containsKey] at h2
      cases hlk : alookup c d.states with
      | none => rw [hlk] at h2; simp at h2
      | some st => simp [DFA.accepts, hc, hlk]

theorem dfa_step_isSome {d : DFA S I} (h : d.currentOk) (a : I) : (d.step a).isSome := by
  cases hc : d.current with
  | none => simp [DFA.step, hc]
  | some c =>
      have h2 : containsKey c d.states = true := h c (by simp [hc])
      rw [containsKey] at h2
      cases hlk : alookup c d.states with
      | none => rw [hlk] at h2; simp at h2
      | some st => cases ht : st.transitions a <;> simp [DFA.step, hc, hlk, ht]

theorem dfa_step_states {d d' : DFA S I} {a : I} (h : d.step a = some d') :
    d'.states = d.states := by
  cases hc : d.current with
  | none =>
      rw [dfaStep_of_current_none hc, Option.some.injEq] at h
      rw [← h]
  | some c =>
      cases hlk : alookup c d.states with
      | none =>
          rw [dfaStep_of_lookup_none hc hlk] at h
          exact Option.noConfusion h
      | some st =>
          cases ht : st.transitions a with
          | none =>
              rw [dfaStep_of_trans_none hc hlk ht, Option.some.injEq] at h
              rw [← h]
          | some nx =>
              rw [dfaStep_of_trans_some hc hlk ht, Option.some.injEq] at h
              rw [← h]

theorem dfa_step_currentOk {d d' : DFA S I} {a : I} (hok : d.currentOk)
    (h : d.step a = some d') : d'.currentOk := by
  have hst := dfa_step_states h
  cases hc : d.current with
  | none =>
      rw [dfaStep_of_current_none hc, Option.some.injEq] at h
      rw [← h]
      exact hok
  | some c =>
      cases hlk : alookup c d.states with
      | none =>
          rw [dfaStep_of_lookup_none hc hlk] at h
          exact Option.noConfusion h
      | some st =>
          cases ht : st.transitions a with
          | none =>
              rw [dfaStep_of_trans_none hc hlk ht, Option.some.injEq] at h
              rw [← h]
              intro s hs
              simp at hs
          | some nx =>
              rw [dfaStep_of_trans_some hc hlk ht, Option.some.injEq] at h
              rw [← h]
              intro s hs
              by_cases hhs : d.has_state nx
              · rw [if_pos hhs, Option.mem_def, Option.some.injEq] at hs
                subst hs
                exact hhs
              · rw [if_neg hhs] at hs
                simp at hs

theorem dfa_set_current_states (d : DFA S I) (id : S) :
    (d.set_current id).states = d.states := rfl

theorem dfa_set_current_ok (d : DFA S I) (id : S) : (d.set_current id).currentOk := by
  intro s hs
  have hcur : (d.set_current id).current
      = if d.has_state id then some id else none := rfl
  rw [hcur] at hs
  by_cases h : d.has_state id
  · rw [if_pos h, Option.mem_def, Option.some.injEq] at hs
    subst hs
    exact h
  · rw [if_neg h] at hs
    simp at hs

theorem dfa_runSteps_states {d : DFA S I} : ∀ {w : List I} {d' : DFA S I},
    DFA.runSteps d w = some d' → d'.states = d.states := by
  intro w
  induction w generalizing d with
  | nil =>
      intro d' h
      rw [DFA.runSteps, Option.some.injEq] at h
      rw [← h]
  | cons a w ih =>
      intro d' h
      rw [DFA.runSteps] at h
      cases hs : d.step a with
      | none => rw [hs] at h; exact Option.noConfusion h
      | some d1 =>
          rw [hs, Option.some_bind] at h
          rw [ih h, dfa_step_states hs]

theorem dfa_runSteps_currentOk {d : DFA S I} : ∀ {w : List I} {d' : DFA S I},
    d.currentOk → DFA.runSteps d w = some d' → d'.currentOk := by
  intro w
  induction w generalizing d with
  | nil =>
      intro d' hok h
      rw [DFA.runSteps, Option.some.injEq] at h
      rw [← h]
      exact hok
  | cons a w ih =>
      intro d' hok h
      rw [DFA.runSteps] at h
      cases hs : d.step a with
      | none => rw [hs] at h; exact Option.noConfusion h
      | some d1 =>
          rw [hs, Option.some_bind] at h
          exact ih (dfa_step_currentOk hok hs) h

theorem dfa_runSteps_isSome {d : DFA S I} (hok : d.currentOk) (w : List I) :
    (DFA.runSteps d w).isSome := by
  induction w generalizing d with
  | nil => simp [DFA.runSteps]
  | cons a w ih =>
      rw [DFA.runSteps]
      cases hs : d.step a with
      | none =>
          have := dfa_step_isSome hok a
          rw [hs] at this
          simp at this
      | some d1 =>
          rw [Option.some_bind]
          exact ih (dfa_step_currentOk hok hs)

theorem dfa_run_isSome {d : DFA S I} (hok : d.currentOk) (w : List I) :
    (d.run w).isSome := by
  cases hc : d.current with
  | none => simp [DFA.run, DFA.get_current, hc]
  | some s =>
      simp only [DFA.run, DFA.get_current, hc]
      cases hrs : DFA.runSteps d w with
      | none =>
          have := dfa_runSteps_isSome hok w
          rw [hrs] at this
          simp at this
      | some d1 =>
          rw [Option.some_bind]
          have h1 : d1.currentOk := dfa_runSteps_currentOk hok hrs
          have h2 := dfa_accepts_isSome h1
          cases ha : d1.accepts with
          | none => rw [ha] at h2; simp at h2
          | some b => simp [ha]

theorem dfa_run_some_shape {d d' : DFA S I} {b : Bool} {w : List I}
    (h : d.run w = some (b, d')) :
    (d.current = none ∧ d' = d ∧ b = false) ∨
    (∃ s d1, d.current = some s ∧ DFA.runSteps d w = some d1 ∧ d1.accepts = some b ∧
      d' = d1.set_current s ∧ containsKey s d.states = true) := by
  cases hc : d.current with
  | none =>
      left
      simp only [DFA.run, DFA.get_current, hc, Option.some.injEq, Prod.mk.injEq] at h
      exact ⟨rfl, h.2.symm, h.1.symm⟩
  | some s =>
      right
      simp only [DFA.run, DFA.get_current, hc] at h
      cases hrs : DFA.runSteps d w with
      | none => rw [hrs] at h; exact Option.noConfusion h
      | some d1 =>
          rw [hrs, Option.some_bind] at h
          cases ha : d1.accepts with
          | none => rw [ha] at h; exact Option.noConfusion h
          | some b1 =>
              rw [ha, Option.map_some', Option.some.injEq, Prod.mk.injEq] at h
              obtain ⟨hb, hd⟩ := h
              subst hb
              refine ⟨s, d1, rfl, rfl, ha, hd.symm, ?_⟩
              -- the run only completes when the snapshot id has a record
              cases w with
              | nil =>
                  rw [DFA.runSteps, Option.some.injEq] at hrs
                  subst hrs
                  simp only [DFA.accepts, hc] at ha
                  cases hlk : alookup s d.states with
                  | none => rw [hlk] at ha; simp at ha
                  | some st => rw [containsKey, hlk]; rfl
              | cons a w' =>
                  rw [DFA.runSteps] at hrs
                  cases hst : d.step a with
                  | none => rw [hst] at hrs; simp at hrs
                  | some dd =>
                      cases hlk : alookup s d.states with
                      | none =>
                          rw [dfaStep_of_lookup_none hc hlk] at hst
                          exact Option.noConfusion hst
                      | some st => rw [containsKey, hlk]; rfl

theorem dfa_run_restores {d d' : DFA S I} {b : Bool} {w : List I}
    (h : d.run w = some (b, d')) : d'.current = d.current := by
  rcases dfa_run_some_shape h with ⟨hc, hd, _⟩ | ⟨s, d1, hc, hrs, _, hd, hck⟩
  · rw [hd, hc]
  · have hst : d1.states = d.states := dfa_runSteps_states hrs
    have : d'.current = if d1.has_state s then some s else none := by rw [hd]; rfl
    rw [this, hc]
    rw [if_pos]
    show containsKey s d1.states = true
    rw [hst]
    exact hck

end DFAOpLemmas

/-! ## Operation lemmas: NFA -/

section NFAOpLemmas

variable [DecidableEq S] [DecidableEq I]

theorem nfa_accepts_eq {n : NFA S I} (h : n.currentOk) :
    n.accepts = some (powAccepts n.states n.current) := by
  rw [NFA.accepts]
  by_cases hex : ∃ s ∈ n.current,
      ((alookup s n.states).map NState.accepts).getD false = true
  · rw [if_pos hex]
    rw [show powAccepts n.states n.current = true from decide_eq_true hex]
  · rw [if_neg hex, if_pos (show ∀ s ∈ n.current, n.has_state s = true from h)]
    rw [show powAccepts n.states n.current = false from decide_eq_false hex]

theorem nfa_accepts_isSome {n : NFA S I} (h : n.currentOk) : (n.accepts).isSome := by
  rw [nfa_accepts_eq h]
  rfl

theorem nfa_step_eq {n : NFA S I} (h : n.currentOk) (a : I) :
    n.step a = some ⟨stepSet n.states n.current a, n.states⟩ := by
  obtain ⟨c, l⟩ := n
  rw [NFA.step,
    if_pos (show ∀ s ∈ (NFA.mk c l : NFA S I).current,
      (NFA.mk c l : NFA S I).has_state s = true from h)]
  rfl

theorem nfa_step_isSome {n : NFA S I} (h : n.currentOk) (a : I) : (n.step a).isSome := by
  rw [nfa_step_eq h]
  rfl

theorem nfa_step_states {n n' : NFA S I} {a : I} (h : n.step a = some n') :
    n'.states = n.states := by
  rw [NFA.step] at h
  by_cases hok : ∀ s ∈ n.current, n.has_state s
  · rw [if_pos hok, Option.some.injEq] at h
    rw [← h]
  · rw [if_neg hok] at h
    exact Option.noConfusion h

theorem nfa_step_guard {n n' : NFA S I} {a : I} (h : n.step a = some n') :
    ∀ s ∈ n.current, n.has_state s := by
  rw [NFA.step] at h
  by_cases hok : ∀ s ∈ n.current, n.has_state s
  · exact hok
  · rw [if_neg hok] at h
    exact Option.noConfusion h

theorem nfa_set_current_states (n : NFA S I) (st : Finset S) :
    (n.set_current st).states = n.states := rfl

theorem nfa_set_current_ok (n : NFA S I) (st : Finset S) :
    (n.set_current st).currentOk := by
  intro s hs
  have hcur : (n.set_current st).current
      = if ∀ x ∈ st, n.has_state x then st else ∅ := rfl
  rw [hcur] at hs
  by_cases h : ∀ x ∈ st, n.has_state x
  · rw [if_pos h] at hs
    exact h s hs
  · rw [if_neg h] at hs
    simp at hs

theorem nfa_runSteps_states {n : NFA S I} : ∀ {w : List I} {n' : NFA S I},
    NFA.runSteps n w = some n' → n'.states = n.states := by
  intro w
  induction w generalizing n with
  | nil =>
      intro n' h
      rw [NFA.runSteps, Option.some.injEq] at h
      rw [← h]
  | cons a w ih =>
      intro n' h
      rw [NFA.runSteps] at h
      cases hs : n.step a with
      | none => rw [hs] at h; simp at h
      | some n1 =>
          rw [hs, Option.some_bind] at h
          rw [ih h, nfa_step_states hs]

theorem nfa_runSteps_sound {n : NFA S I} : ∀ {w : List I},
    n.currentOk → n.targetsOk →
      ∃ n', NFA.runSteps n w = some n' ∧ n'.states = n.states ∧ n'.currentOk := by
  intro w
  induction w generalizing n with
  | nil => exact fun hok _ => ⟨n, rfl, rfl, hok⟩
  | cons a w ih =>
      intro hok hT
      have hstep := nfa_step_eq hok a
      have hok1 : (NFA.mk (stepSet n.states n.current a) n.states : NFA S I).currentOk := by
        intro s hs
        show containsKey s n.states = true
        exact (containsKey_iff_mem_keysFinset s n.states).2
          (stepSet_subset hT n.current a hs)
      rcases ih hok1 hT with ⟨n', h1, h2, h3⟩
      refine ⟨n', ?_, h2, h3⟩
      rw [NFA.runSteps, hstep, Option.some_bind]
      exact h1

theorem nfa_run_isSome {n : NFA S I} (hok : n.currentOk) (hT : n.targetsOk)
    (w : List I) : (n.run w).isSome := by
  by_cases hc : n.current = ∅
  · have hg : n.get_current = none := by simp [NFA.get_current, hc]
    simp [NFA.run, hg]
  · have hg : n.get_current = some n.current := by simp [NFA.get_current, hc]
    rcases nfa_runSteps_sound (w := w) hok hT with ⟨n1, h1, h2, h3⟩
    simp only [NFA.run, hg, h1, Option.some_bind, nfa_accepts_eq h3, Option.map_some']
    rfl

theorem nfa_run_some_shape {n n' : NFA S I} {b : Bool} {w : List I}
    (h : n.run w = some (b, n')) :
    (n.current = ∅ ∧ n' = n ∧ b = false) ∨
    (n.current ≠ ∅ ∧ ∃ n1, NFA.runSteps n w = some n1 ∧ n1.accepts = some b ∧
      n' = n1.set_current n.current ∧ n1.states = n.states) := by
  by_cases hc : n.current = ∅
  · left
    have hg : n.get_current = none := by simp [NFA.get_current, hc]
    simp only [NFA.run, hg, Option.some.injEq, Prod.mk.injEq] at h
    exact ⟨hc, h.2.symm, h.1.symm⟩
  · right
    have hg : n.get_current = some n.current := by simp [NFA.get_current, hc]
    simp only [NFA.run, hg] at h
    cases hrs : NFA.runSteps n w with
    | none => rw [hrs] at h; exact Option.noConfusion h
    | some n1 =>
        rw [hrs, Option.some_bind] at h
        cases ha : n1.accepts with
        | none => rw [ha] at h; exact Option.noConfusion h
        | some b1 =>
            rw [ha, Option.map_some', Option.some.injEq, Prod.mk.injEq] at h
            obtain ⟨hb, hd⟩ := h
            subst hb
            exact ⟨hc, n1, rfl, ha, hd.symm, nfa_runSteps_states hrs⟩

theorem nfa_run_restores {n n' : NFA S I} {b : Bool} {w : List I}
    (hok : n.currentOk) (h : n.run w = some (b, n')) : n'.current = n.current := by
  rcases nfa_run_some_shape h with ⟨hc, hd, _⟩ | ⟨hc, n1, hrs, ha, hd, hst⟩
  · rw [hd]
  · have hguard : ∀ x ∈ n.current, n1.has_state x := by
      intro x hx
      show containsKey x n1.states = true
      rw [hst]
      exact hok x hx
    have : n'.current = if ∀ x ∈ n.current, n1.has_state x then n.current else ∅ := by
      rw [hd]; rfl
    rw [this, if_pos hguard]

end NFAOpLemmas

/-! ## Lemmas about the DFA → NFA lift -/

section LiftLemmas

variable [DecidableEq S] [DecidableEq I]

theorem dfa_ext {d d' : DFA S I} (h1 : d.current = d'.current)
    (h2 : d.states = d'.states) : d = d' := by
  cases d
  cases d'
  cases h1
  cases h2
  rfl

theorem nfa_ext {n n' : NFA S I} (h1 : n.current = n'.current)
    (h2 : n.states = n'.states) : n = n' := by
  cases n
  cases n'
  cases h1
  cases h2
  rfl

theorem toNFA_states (d : DFA S I) :
    d.toNFA.states = d.states.map (fun p => (p.1, liftNState p.2)) := by
  show (d.states.map _).map _ = _
  rw [List.map_map]
  rfl

theorem toNFA_alookup (d : DFA S I) (id : S) :
    alookup id d.toNFA.states = (alookup id d.states).map liftNState := by
  rw [toNFA_states, alookup_map_value liftNState]

theorem toNFA_current (d : DFA S I) : d.toNFA.current = liftCur d.current := by
  obtain ⟨cur, sts⟩ := d
  cases cur <;> rfl

theorem toNFA_containsKey (d : DFA S I) (id : S) :
    containsKey id d.toNFA.states = containsKey id d.states := by
  rw [containsKey, containsKey, toNFA_alookup]
  cases alookup id d.states <;> rfl

theorem targetsOk_of_states_eq {d d' : DFA S I} (h : d'.states = d.states)
    (hT : d.targetsOk) : d'.targetsOk := by
  intro p hp a
  rw [h] at hp ⊢
  exact hT p hp a

theorem lift_accepts (d : DFA S I) : d.toNFA.accepts = d.accepts := by
  cases hc : d.current with
  | none =>
      have h1 : d.toNFA.current = ∅ := by rw [toNFA_current, hc]; rfl
      rw [NFA.accepts, if_neg (by rw [h1]; rintro ⟨s, hs, _⟩; simp at hs),
        if_pos (by rw [h1]; intro s hs; simp at hs)]
      simp [DFA.accepts, hc]
  | some c =>
      have h1 : d.toNFA.current = {c} := by rw [toNFA_current, hc]; rfl
      cases hlk : alookup c d.states with
      | none =>
          have hex : ¬ ∃ s ∈ d.toNFA.current,
              ((alookup s d.toNFA.states).map NState.accepts).getD false = true := by
            rw [h1]
            rintro ⟨s, hs, hacc⟩
            rw [Finset.mem_singleton] at hs
            subst hs
            rw [toNFA_alookup, hlk] at hacc
            simp at hacc
          have hg : ¬ ∀ s ∈ d.toNFA.current, d.toNFA.has_state s = true := by
            rw [h1]
            intro hall
            have := hall c (Finset.mem_singleton_self c)
            rw [NFA.has_state, toNFA_containsKey, containsKey, hlk] at this
            simp at this
          rw [NFA.accepts, if_neg hex, if_neg hg]
          simp only [DFA.accepts, hc, hlk]
          rfl
      | some st =>
          have hexiff : (∃ s ∈ d.toNFA.current,
              ((alookup s d.toNFA.states).map NState.accepts).getD false = true)
              ↔ st.accepts = true := by
            rw [h1]
            constructor
            · rintro ⟨s, hs, hacc⟩
              rw [Finset.mem_singleton] at hs
              subst hs
              rw [toNFA_alookup, hlk, Option.map_some', Option.map_some',
                Option.getD_some] at hacc
              exact hacc
            · intro hacc
              refine ⟨c, Finset.mem_singleton_self c, ?_⟩
              rw [toNFA_alookup, hlk, Option.map_some', Option.map_some',
                Option.getD_some]
              exact hacc
          have hg : ∀ s ∈ d.toNFA.current, d.toNFA.has_state s = true := by
            rw [h1]
            intro s hs
            rw [Finset.mem_singleton] at hs
            subst hs
            rw [NFA.has_state, toNFA_containsKey, containsKey, hlk]
            rfl
          rw [NFA.accepts]
          simp only [DFA.accepts, hc, hlk, Option.map_some']
          by_cases hacc : st.accepts = true
          · rw [if_pos (hexiff.2 hacc), hacc]
          · have hfalse : st.accepts = false := by
              cases hb : st.accepts
              · rfl
              · exact absurd hb hacc
            rw [if_neg (fun hex => hacc (hexiff.1 hex)), if_pos hg, hfalse]

theorem lift_step {d : DFA S I} (hT : d.targetsOk) (a : I) :
    d.toNFA.step a = (d.step a).map DFA.toNFA := by
  cases hc : d.current with
  | none =>
      have h1 : d.toNFA.current = ∅ := by rw [toNFA_current, hc]; rfl
      rw [dfaStep_of_current_none hc, Option.map_some']
      rw [NFA.step, if_pos (by rw [h1]; intro s hs; simp at hs)]
      rw [Option.some.injEq]
      refine nfa_ext ?_ rfl
      show d.toNFA.current.biUnion _ = d.toNFA.current
      rw [h1]
      simp
  | some c =>
      have h1 : d.toNFA.current = {c} := by rw [toNFA_current, hc]; rfl
      cases hlk : alookup c d.states with
      | none =>
          have hg : ¬ ∀ s ∈ d.toNFA.current, d.toNFA.has_state s = true := by
            rw [h1]
            intro hall
            have := hall c (Finset.mem_singleton_self c)
            rw [NFA.has_state, toNFA_containsKey, containsKey, hlk] at this
            simp at this
          rw [NFA.step, if_neg hg, dfaStep_of_lookup_none hc hlk]
          rfl
      | some st =>
          have hg : ∀ s ∈ d.toNFA.current, d.toNFA.has_state s = true := by
            rw [h1]
            intro s hs
            rw [Finset.mem_singleton] at hs
            subst hs
            rw [NFA.has_state, toNFA_containsKey, containsKey, hlk]
            rfl
          rw [NFA.step, if_pos hg]
          have hstep : d.toNFA.current.biUnion
              (fun s => ((alookup s d.toNFA.states).bind
                (fun r => r.transitions a)).getD ∅)
              = ((st.transitions a).map (fun t => ({t} : Finset S))).getD ∅ := by
            rw [h1, Finset.singleton_biUnion, toNFA_alookup, hlk, Option.map_some',
              Option.some_bind]
            rfl
          cases ht : st.transitions a with
          | none =>
              rw [dfaStep_of_trans_none hc hlk ht, Option.map_some', Option.some.injEq]
              refine nfa_ext ?_ ?_
              · show d.toNFA.current.biUnion _
                  = ({ d with current := none } : DFA S I).toNFA.current
                rw [hstep, ht, toNFA_current]
                rfl
              · show d.toNFA.states = ({ d with current := none } : DFA S I).toNFA.states
                rw [toNFA_states, toNFA_states]
          | some t =>
              have hckt : containsKey t d.states = true := by
                have := hT (c, st) (mem_of_alookup_eq_some hlk) a
                rw [ht] at this
                simpa using this
              have hhs : d.has_state t = true := hckt
              rw [dfaStep_of_trans_some hc hlk ht, Option.map_some', Option.some.injEq]
              refine nfa_ext ?_ ?_
              · show d.toNFA.current.biUnion _
                  = ({ d with current := if d.has_state t then some t else none } :
                      DFA S I).toNFA.current
                rw [hstep, ht, toNFA_current]
                show ((some t).map (fun x => ({x} : Finset S))).getD ∅
                  = liftCur (if d.has_state t then some t else none)
                rw [hhs]
                rfl
              · show d.toNFA.states
                  = ({ d with current := if d.has_state t then some t else none } :
                      DFA S I).toNFA.states
                rw [toNFA_states, toNFA_states]

theorem dfa_step_targetsOk {d d' : DFA S I} {a : I} (hT : d.targetsOk)
    (h : d.step a = some d') : d'.targetsOk :=
  targetsOk_of_states_eq (dfa_step_states h) hT

theorem lift_runSteps {d : DFA S I} (hT : d.targetsOk) (w : List I) :
    NFA.runSteps d.toNFA w = (DFA.runSteps d w).map DFA.toNFA := by
  induction w generalizing d with
  | nil => rfl
  | cons a w ih =>
      rw [NFA.runSteps, DFA.runSteps, lift_step hT]
      cases hs : d.step a with
      | none => rfl
      | some d1 =>
          rw [Option.map_some', Option.some_bind, Option.some_bind]
          exact ih (dfa_step_targetsOk hT hs)

theorem lift_get_current (d : DFA S I) :
    d.toNFA.get_current = d.get_current.map (fun c => ({c} : Finset S)) := by
  cases hc : d.current with
  | none =>
      have h1 : d.toNFA.current = ∅ := by rw [toNFA_current, hc]; rfl
      rw [NFA.get_current, if_neg (by rw [h1]; simp)]
      show _ = Option.map _ d.current
      rw [hc]
      rfl
  | some c =>
      have h1 : d.toNFA.current = {c} := by rw [toNFA_current, hc]; rfl
      rw [NFA.get_current, if_pos (by rw [h1]; simp), h1]
      show _ = Option.map _ d.current
      rw [hc]
      rfl

theorem lift_run {d : DFA S I} (hT : d.targetsOk) (w : List I) :
    (d.toNFA.run w).map Prod.fst = (d.run w).map Prod.fst := by
  cases hc : d.current with
  | none =>
      have hg1 : d.toNFA.get_current = none := by
        rw [lift_get_current]
        show Option.map _ d.current = none
        rw [hc]
        rfl
      have hg2 : d.get_current = none := hc
      simp only [NFA.run, hg1, DFA.run, hg2, Option.map_some']
  | some s =>
      have hg1 : d.toNFA.get_current = some {s} := by
        rw [lift_get_current]
        show Option.map _ d.current = _
        rw [hc]
        rfl
      have hg2 : d.get_current = some s := hc
      simp only [NFA.run, hg1, DFA.run, hg2]
      rw [lift_runSteps hT]
      cases hrs : DFA.runSteps d w with
      | none => rfl
      | some d1 =>
          rw [Option.map_some', Option.some_bind, Option.some_bind, lift_accepts]
          cases ha : d1.accepts with
          | none => rfl
          | some b => rfl

end LiftLemmas

/-! ## Invariant preservation across the contract operations -/

section InvLemmas

variable [DecidableEq S] [DecidableEq I] {V : Type}

theorem mem_mapInsert {k : S} {v : V} {l : List (S × V)} {p : S × V}
    (h : p ∈ mapInsert k v l) : p = (k, v) ∨ p ∈ l := by
  induction l with
  | nil => simpa [mapInsert] using h
  | cons e rest ih =>
      obtain ⟨k', v'⟩ := e
      by_cases h2 : k' = k
      · rw [mapInsert, if_pos h2] at h
        rcases List.mem_cons.1 h with h3 | h3
        · exact Or.inl h3
        · exact Or.inr (List.mem_cons_of_mem _ h3)
      · rw [mapInsert, if_neg h2] at h
        rcases List.mem_cons.1 h with h3 | h3
        · rw [h3]
          exact Or.inr (List.mem_cons_self _ _)
        · rcases ih h3 with h4 | h4
          · exact Or.inl h4
          · exact Or.inr (List.mem_cons_of_mem _ h4)

theorem containsKey_mapInsert_of {k k' : S} {v : V} {l : List (S × V)}
    (h : containsKey k' l = true) : containsKey k' (mapInsert k v l) = true := by
  rw [containsKey_iff_mem_keysFinset] at h ⊢
  rw [keysFinset_mapInsert]
  exact Finset.mem_insert_of_mem h

theorem containsKey_map_value {W : Type} (f : V → W) (k : S) (l : List (S × V)) :
    containsKey k (l.map (fun p => (p.1, f p.2))) = containsKey k l := by
  rw [containsKey, containsKey, alookup_map_value]
  cases alookup k l <;> rfl

theorem dfa_add_state_ok {d : DFA S I} (h : d.currentOk) (id : S) (b : Bool) :
    (d.add_state id b).currentOk := by
  intro s hs
  exact containsKey_mapInsert_of (h s hs)

theorem dfa_add_transition_current (d : DFA S I) (p : S) (i : I) (nx : S) :
    (d.add_transition p i nx).1.current = d.current := by
  rw [DFA.add_transition]
  by_cases h1 : ¬ d.has_state nx
  · rw [if_pos h1]
  · rw [if_neg h1]
    cases hlk : alookup p d.states with
    | none => rfl
    | some st => rfl

theorem dfa_add_transition_states_mono {d : DFA S I} {p : S} {i : I} {nx : S} (s : S)
    (h : containsKey s d.states = true) :
    containsKey s (d.add_transition p i nx).1.states = true := by
  rw [DFA.add_transition]
  by_cases h1 : ¬ d.has_state nx
  · rw [if_pos h1]
    exact h
  · rw [if_neg h1]
    cases hlk : alookup p d.states with
    | none => exact h
    | some st => exact containsKey_mapInsert_of h

theorem dfa_add_transition_ok {d : DFA S I} (h : d.currentOk) (p : S) (i : I) (nx : S) :
    (d.add_transition p i nx).1.currentOk := by
  intro s hs
  rw [Option.mem_def, dfa_add_transition_current] at hs
  exact dfa_add_transition_states_mono s (h s hs)

theorem dfa_run_snd_ok {d d' : DFA S I} {b : Bool} {w : List I} (hok : d.currentOk)
    (h : d.run w = some (b, d')) : d'.currentOk := by
  rcases dfa_run_some_shape h with ⟨_, hd, _⟩ | ⟨s, d1, _, _, _, hd, _⟩
  · rw [hd]
    exact hok
  · rw [hd]
    exact dfa_set_current_ok d1 s

theorem dfa_run_states {d d' : DFA S I} {b : Bool} {w : List I}
    (h : d.run w = some (b, d')) : d'.states = d.states := by
  rcases dfa_run_some_shape h with ⟨_, hd, _⟩ | ⟨s, d1, _, hrs, _, hd, _⟩
  · rw [hd]
  · rw [hd, dfa_set_current_states, dfa_runSteps_states hrs]

theorem dfa_applyOp_ok {d : DFA S I} (h : d.currentOk) (op : Op S I) :
    (d.applyOp op).currentOk := by
  cases op with
  | addState id b => exact dfa_add_state_ok h id b
  | addTransition p i nx => exact dfa_add_transition_ok h p i nx
  | setCurrent st =>
      cases st with
      | inl id => exact dfa_set_current_ok d id
      | inr st => exact h
  | step a =>
      show ((d.step a).getD d).currentOk
      cases hs : d.step a with
      | none => exact h
      | some d1 => exact dfa_step_currentOk h hs
  | runOp w =>
      show (((d.run w).map Prod.snd).getD d).currentOk
      cases hr : d.run w with
      | none => exact h
      | some p =>
          obtain ⟨b, d1⟩ := p
          exact dfa_run_snd_ok h hr

theorem dfa_applyOps_ok {d : DFA S I} (h : d.currentOk) (ops : List (Op S I)) :
    (d.applyOps ops).currentOk := by
  induction ops generalizing d with
  | nil => exact h
  | cons op rest ih => exact ih (dfa_applyOp_ok h op)

theorem dfa_new_ok : (DFA.new : DFA S I).currentOk := by
  intro s hs
  simp [DFA.new] at hs

theorem dfa_addTransitions_ok {d : DFA S I} (h : d.currentOk)
    (ts : List (S × I × S)) : (DFA.addTransitions d ts).1.currentOk := by
  induction ts generalizing d with
  | nil => exact h
  | cons t rest ih =>
      obtain ⟨p, a, nx⟩ := t
      rw [DFA.addTransitions]
      cases h2 : d.add_transition p a nx with
      | mk d1 e =>
          have hd1 : d1.currentOk := by
            have := dfa_add_transition_ok h p a nx
            rw [h2] at this
            exact this
          cases e with
          | none => exact ih hd1
          | some err => exact hd1

theorem dfa_build_ok (c : DFACtor S I) : c.build.currentOk := by
  cases c with
  | newC => exact dfa_new_ok
  | withState id b => exact dfa_set_current_ok _ _
  | fromStates init sts => exact dfa_set_current_ok _ _
  | fromTransitions init sts ts => exact dfa_addTransitions_ok (dfa_set_current_ok _ _) ts
  | fromMap init m =>
      intro s hs
      show containsKey s (DFA.from_map init m).states = true
      have hs' : (DFA.from_map init m : DFA S I).current = some s := hs
      have hst : (DFA.from_map init m).states
          = m.map (fun p => (p.1, (⟨p.2.1, p.2.2⟩ : DState S I))) := rfl
      by_cases h : containsKey init m = true
      · have hcur : (DFA.from_map init m).current = some init := by
          show (if containsKey init m then some init else none) = some init
          rw [h]
          rfl
        rw [hcur, Option.some.injEq] at hs'
        subst hs'
        rw [hst, containsKey_map_value
          (fun v : Bool × (I → Option S) => (⟨v.1, v.2⟩ : DState S I)) init m]
        exact h
      · have hcur : (DFA.from_map init m).current = none := by
          show (if containsKey init m then some init else none) = none
          rw [if_neg h]
        rw [hcur] at hs'
        exact Option.noConfusion hs'

theorem nfa_targetsOk_of_states_eq {n n' : NFA S I} (h : n'.states = n.states)
    (hT : n.targetsOk) : n'.targetsOk := by
  intro p hp a
  rw [NFA.targetsOk, tableTargetsOk] at hT
  rw [h] at hp ⊢
  exact hT p hp a

theorem nfa_add_state_ok {n : NFA S I} (h : n.currentOk) (id : S) (b : Bool) :
    (n.add_state id b).currentOk := by
  intro s hs
  exact containsKey_mapInsert_of (h s hs)

theorem nfa_add_state_targetsOk {n : NFA S I} (hT : n.targetsOk) (id : S) (b : Bool) :
    (n.add_state id b).targetsOk := by
  intro p hp a
  rcases mem_mapInsert hp with h1 | h1
  · rw [h1]
    intro x hx
    simp at hx
  · intro x hx
    have : x ∈ keysFinset n.states := hT p h1 a hx
    show x ∈ keysFinset (mapInsert id _ n.states)
    rw [keysFinset_mapInsert]
    exact Finset.mem_insert_of_mem this

theorem nfa_add_transition_current (n : NFA S I) (p : S) (i : I) (nx : S) :
    (n.add_transition p i nx).1.current = n.current := by
  rw [NFA.add_transition]
  by_cases h1 : ¬ n.has_state nx
  · rw [if_pos h1]
  · rw [if_neg h1]
    cases hlk : alookup p n.states with
    | none => rfl
    | some st => rfl

theorem nfa_add_transition_states_mono {n : NFA S I} {p : S} {i : I} {nx : S} (s : S)
    (h : containsKey s n.states = true) :
    containsKey s (n.add_transition p i nx).1.states = true := by
  rw [NFA.add_transition]
  by_cases h1 : ¬ n.has_state nx
  · rw [if_pos h1]
    exact h
  · rw [if_neg h1]
    cases hlk : alookup p n.states with
    | none => exact h
    | some st => exact containsKey_mapInsert_of h

theorem nfa_add_transition_ok {n : NFA S I} (h : n.currentOk) (p : S) (i : I) (nx : S) :
    (n.add_transition p i nx).1.currentOk := by
  intro s hs
  rw [nfa_add_transition_current] at hs
  exact nfa_add_transition_states_mono s (h s hs)

theorem nfa_add_transition_targetsOk {n : NFA S I} (hT : n.targetsOk)
    (p : S) (i : I) (nx : S) : (n.add_transition p i nx).1.targetsOk := by
  rw [NFA.add_transition]
  by_cases h1 : ¬ n.has_state nx
  · rw [if_pos h1]
    exact hT
  · rw [if_neg h1]
    have hnx : containsKey nx n.states = true := by
      by_cases h2 : n.has_state nx = true
      · exact h2
      · exact absurd (fun hh => h2 hh) h1
    cases hlk : alookup p n.states with
    | none => exact hT
    | some st =>
        intro q hq a
        have hkeys : keysFinset (mapInsert p
            (⟨st.accepts, fun a0 =>
              if a0 = i then
                match st.transitions i with
                | some set => some (insert nx set)
                | none => some (NFA.new_state nx)
              else st.transitions a0⟩ : NState S I) n.states)
            = insert p (keysFinset n.states) := keysFinset_mapInsert _ _ _
        have hsub : keysFinset n.states ⊆ insert p (keysFinset n.states) :=
          Finset.subset_insert _ _
        rcases mem_mapInsert hq with h2 | h2
        · rw [h2]
          show ((if a = i then
              match st.transitions i with
              | some set => some (insert nx set)
              | none => some (NFA.new_state nx)
            else st.transitions a).getD ∅) ⊆ _
          rw [show keysFinset (mapInsert p _ n.states) = insert p (keysFinset n.states)
            from hkeys]
          by_cases ha : a = i
          · rw [if_pos ha]
            have hmemp : (p, st) ∈ n.states := mem_of_alookup_eq_some hlk
            cases hti : st.transitions i with
            | none =>
                intro x hx
                rw [NFA.new_state] at hx
                simp only [Option.getD_some, Finset.mem_singleton] at hx
                subst hx
                exact hsub ((containsKey_iff_mem_keysFinset x n.states).1 hnx)
            | some set =>
                intro x hx
                simp only [Option.getD_some, Finset.mem_insert] at hx
                rcases hx with hx | hx
                · subst hx
                  exact hsub ((containsKey_iff_mem_keysFinset x n.states).1 hnx)
                · have := hT (p, st) hmemp i
                  rw [hti] at this
                  exact hsub (this hx)
          · rw [if_neg ha]
            intro x hx
            exact hsub (hT (p, st) (mem_of_alookup_eq_some hlk) a hx)
        · intro x hx
          have : x ∈ keysFinset n.states := hT q h2 a hx
          show x ∈ keysFinset (mapInsert p _ n.states)
          rw [keysFinset_mapInsert]
          exact Finset.mem_insert_of_mem this

theorem nfa_step_inv {n n' : NFA S I} {a : I} (hok : n.currentOk) (hT : n.targetsOk)
    (h : n.step a = some n') : n'.currentOk ∧ n'.targetsOk := by
  rw [nfa_step_eq hok a, Option.some.injEq] at h
  constructor
  · intro s hs
    rw [← h] at hs ⊢
    show containsKey s n.states = true
    exact (containsKey_iff_mem_keysFinset s n.states).2
      (stepSet_subset hT n.current a hs)
  · exact nfa_targetsOk_of_states_eq (by rw [← h]) hT

theorem nfa_run_snd_inv {n n' : NFA S I} {b : Bool} {w : List I}
    (hok : n.currentOk) (hT : n.targetsOk) (h : n.run w = some (b, n')) :
    n'.currentOk ∧ n'.targetsOk := by
  rcases nfa_run_some_shape h with ⟨_, hd, _⟩ | ⟨_, n1, _, _, hd, hst⟩
  · rw [hd]
    exact ⟨hok, hT⟩
  · rw [hd]
    refine ⟨nfa_set_current_ok n1 n.current, ?_⟩
    exact nfa_targetsOk_of_states_eq (by rw [nfa_set_current_states, hst]) hT

theorem nfa_run_states {n n' : NFA S I} {b : Bool} {w : List I}
    (h : n.run w = some (b, n')) : n'.states = n.states := by
  rcases nfa_run_some_shape h with ⟨_, hd, _⟩ | ⟨_, n1, _, _, hd, hst⟩
  · rw [hd]
  · rw [hd, nfa_set_current_states, hst]

theorem nfa_applyOp_inv {n : NFA S I} (h : n.currentOk ∧ n.targetsOk) (op : Op S I) :
    (n.applyOp op).currentOk ∧ (n.applyOp op).targetsOk := by
  obtain ⟨hok, hT⟩ := h
  cases op with
  | addState id b => exact ⟨nfa_add_state_ok hok id b, nfa_add_state_targetsOk hT id b⟩
  | addTransition p i nx =>
      exact ⟨nfa_add_transition_ok hok p i nx, nfa_add_transition_targetsOk hT p i nx⟩
  | setCurrent st =>
      cases st with
      | inl id =>
          exact ⟨nfa_set_current_ok n _, nfa_targetsOk_of_states_eq rfl hT⟩
      | inr st =>
          exact ⟨nfa_set_current_ok n _, nfa_targetsOk_of_states_eq rfl hT⟩
  | step a =>
      show ((n.step a).getD n).currentOk ∧ ((n.step a).getD n).targetsOk
      cases hs : n.step a with
      | none => exact ⟨hok, hT⟩
      | some n1 => exact nfa_step_inv hok hT hs
  | runOp w =>
      show (((n.run w).map Prod.snd).getD n).currentOk
        ∧ (((n.run w).map Prod.snd).getD n).targetsOk
      cases hr : n.run w with
      | none => exact ⟨hok, hT⟩
      | some pr =>
          obtain ⟨b, n1⟩ := pr
          exact nfa_run_snd_inv hok hT hr

theorem nfa_applyOps_inv {n : NFA S I} (h : n.currentOk ∧ n.targetsOk)
    (ops : List (Op S I)) :
    (n.applyOps ops).currentOk ∧ (n.applyOps ops).targetsOk := by
  induction ops generalizing n with
  | nil => exact h
  | cons op rest ih => exact ih (nfa_applyOp_inv h op)

theorem nfa_new_inv : (NFA.new : NFA S I).currentOk ∧ (NFA.new : NFA S I).targetsOk := by
  constructor
  · intro s hs
    simp [NFA.new] at hs
  · intro p hp a
    simp [NFA.new] at hp

theorem nfa_addTransitions_inv {n : NFA S I} (h : n.currentOk ∧ n.targetsOk)
    (ts : List (S × I × S)) :
    (NFA.addTransitions n ts).1.currentOk ∧ (NFA.addTransitions n ts).1.targetsOk := by
  induction ts generalizing n with
  | nil => exact h
  | cons t rest ih =>
      obtain ⟨p, a, nx⟩ := t
      rw [NFA.addTransitions]
      cases h2 : n.add_transition p a nx with
      | mk n1 e =>
          have hn1 : n1.currentOk ∧ n1.targetsOk := by
            have h3 := nfa_add_transition_ok h.1 p a nx
            have h4 := nfa_add_transition_targetsOk h.2 p a nx
            rw [h2] at h3 h4
            exact ⟨h3, h4⟩
          cases e with
          | none => exact ih hn1
          | some err => exact hn1

theorem nfa_from_states_inv (init : Finset S) (sts : List (S × Bool)) :
    (NFA.from_states init sts : NFA S I).currentOk
      ∧ (NFA.from_states init sts : NFA S I).targetsOk := by
  refine ⟨nfa_set_current_ok _ _, nfa_targetsOk_of_states_eq rfl ?_⟩
  have : ∀ (n0 : NFA S I), n0.targetsOk →
      (sts.foldl (fun n p => n.add_state p.1 p.2) n0).targetsOk := by
    intro n0
    induction sts generalizing n0 with
    | nil => exact fun h => h
    | cons e rest ih =>
        intro h
        exact ih _ (nfa_add_state_targetsOk h e.1 e.2)
  exact this NFA.new nfa_new_inv.2

theorem nfa_build_inv (c : NFACtor S I) :
    c.build.currentOk ∧ c.build.targetsOk := by
  cases c with
  | newC => exact nfa_new_inv
  | withState id b =>
      refine ⟨nfa_set_current_ok _ _, nfa_targetsOk_of_states_eq rfl ?_⟩
      exact nfa_add_state_targetsOk nfa_new_inv.2 id b
  | fromStates init sts => exact nfa_from_states_inv init sts
  | fromTransitions init sts ts =>
      exact nfa_addTransitions_inv (nfa_from_states_inv init sts) ts

end InvLemmas

/-! ## Remaining helper lemmas -/

section MoreLemmas

variable [DecidableEq S] [DecidableEq I]

theorem alookup_eq_none {V : Type} {k : S} {l : List (S × V)}
    (h : containsKey k l = false) : alookup k l = none := by
  rw [containsKey] at h
  cases hlk : alookup k l with
  | none => rfl
  | some v => rw [hlk] at h; exact Bool.noConfusion h

theorem dfa_applyOp_hasState {d : DFA S I} (op : Op S I) {id : S}
    (h : d.has_state id = true) : (d.applyOp op).has_state id = true := by
  cases op with
  | addState id2 b => exact containsKey_mapInsert_of h
  | addTransition p i nx => exact dfa_add_transition_states_mono id h
  | setCurrent st =>
      cases st with
      | inl i2 => exact h
      | inr s2 => exact h
  | step a =>
      show ((d.step a).getD d).has_state id = true
      cases hs : d.step a with
      | none => exact h
      | some d1 =>
          show containsKey id d1.states = true
          rw [dfa_step_states hs]
          exact h
  | runOp w =>
      show (((d.run w).map Prod.snd).getD d).has_state id = true
      cases hr : d.run w with
      | none => exact h
      | some pr =>
          obtain ⟨b, d1⟩ := pr
          show containsKey id d1.states = true
          rw [dfa_run_states hr]
          exact h

theorem nfa_applyOp_hasState {n : NFA S I} (op : Op S I) {id : S}
    (h : n.has_state id = true) : (n.applyOp op).has_state id = true := by
  cases op with
  | addState id2 b => exact containsKey_mapInsert_of h
  | addTransition p i nx => exact nfa_add_transition_states_mono id h
  | setCurrent st =>
      cases st with
      | inl i2 => exact h
      | inr s2 => exact h
  | step a =>
      show ((n.step a).getD n).has_state id = true
      cases hs : n.step a with
      | none => exact h
      | some n1 =>
          show containsKey id n1.states = true
          rw [nfa_step_states hs]
          exact h
  | runOp w =>
      show (((n.run w).map Prod.snd).getD n).has_state id = true
      cases hr : n.run w with
      | none => exact h
      | some pr =>
          obtain ⟨b, n1⟩ := pr
          show containsKey id n1.states = true
          rw [nfa_run_states hr]
          exact h

theorem containsKey_convStates_iff {l : List (S × NState S I)} (hn : keysNodup l)
    (t : Finset S) :
    containsKey t (convStates l) = true ↔ t.Nonempty ∧ t ⊆ keysFinset l := by
  rw [containsKey, convStates_alookup hn]
  by_cases h : t.Nonempty ∧ t ⊆ keysFinset l <;> simp [h]

theorem toDFA_current {n : NFA S I} (hn : keysNodup n.states) :
    (n.toDFA).current
      = if n.current.Nonempty ∧ n.current ⊆ keysFinset n.states then some n.current
        else none := by
  show (if containsKey n.current (convStates n.states) then some n.current else none) = _
  by_cases h : n.current.Nonempty ∧ n.current ⊆ keysFinset n.states
  · rw [if_pos h, (containsKey_convStates_iff hn n.current).2 h]
    rfl
  · rw [if_neg h]
    have : containsKey n.current (convStates n.states) = false := by
      cases hck : containsKey n.current (convStates n.states)
      · rfl
      · exact absurd ((containsKey_convStates_iff hn n.current).1 hck) h
    rw [this]
    rfl

theorem dfa_dead_runSteps {d : DFA S I} (h : d.current = none) (w : List I) :
    DFA.runSteps d w = some d := by
  induction w with
  | nil => rfl
  | cons a w ih => rw [DFA.runSteps, dfaStep_of_current_none h, Option.some_bind, ih]

theorem nfa_dead_step {n : NFA S I} (h : n.current = ∅) (a : I) :
    n.step a = some n := by
  rw [NFA.step, if_pos (by rw [h]; intro s hs; simp at hs)]
  rw [Option.some.injEq]
  refine nfa_ext ?_ rfl
  show n.current.biUnion _ = n.current
  rw [h]
  simp

theorem nfa_dead_runSteps {n : NFA S I} (h : n.current = ∅) (w : List I) :
    NFA.runSteps n w = some n := by
  induction w with
  | nil => rfl
  | cons a w ih => rw [NFA.runSteps, nfa_dead_step h, Option.some_bind, ih]

end MoreLemmas

/-! # The claims -/

section Claims

/-- C1, counterexample: as stated — over every NFA and input sequence —
determinization does not preserve the `run` result.  `corruptNFA` (current
`{0}` with no declared states, as `NFA::from_map` or deserialization can
produce) panics in `run` (the `get_state(el).unwrap()` in `accepts`,
modelled as `none`), while its powerset DFA returns `false`. -/
theorem claim1_counterexample :
    (corruptNFA.run []).map Prod.fst = none
      ∧ ((corruptNFA.toDFA).run []).map Prod.fst = some false := by
  constructor
  · decide
  · decide

/-- C1 (amended): for every NFA whose states table has pairwise-distinct
keys (always true of a `HashMap`) and whose current set and recorded
transition targets reference only declared states — as holds for every NFA
built through the contract operations — running the NFA and running the
DFA produced by the powerset conversion on any input sequence return the
same acceptance result.  An NFA violating the validity conditions can
panic in `run` where its determinization returns `false`. -/
theorem claim1_theorem {S I : Type} [DecidableEq S] [DecidableEq I] (n : NFA S I)
    (hn : keysNodup n.states) (hok : n.currentOk) (hT : n.targetsOk) (w : List I) :
    (n.run w).map Prod.fst = ((n.toDFA).run w).map Prod.fst := by
  obtain ⟨c, l⟩ := n
  exact conv_run hn hT
    (fun s hs => (containsKey_iff_mem_keysFinset s l).1 (hok s hs)) w

/-- C1 witness: the amended equivalence at a concrete well-formed NFA. -/
theorem claim1_witness :
    (wfNFA.run [true, false]).map Prod.fst
      = ((wfNFA.toDFA).run [true, false]).map Prod.fst :=
  claim1_theorem wfNFA (by decide) (by decide) (by decide) [true, false]

/-- C2, counterexample: as stated — for every automaton value, including
deserialized ones — the execution operations are not total.  `corruptNFA`
has current `{0}` with no declared states; `accepts` and `step` reach
`get_state(el).unwrap()` on the undeclared id `0` and panic (modelled as
`none`). -/
theorem claim2_counterexample :
    corruptNFA.accepts = none ∧ (corruptNFA.step true).isSome = false := by
  constructor
  · decide
  · decide

/-- C2 (amended): `has_state`, `get_current`, `set_current` and `add_state`
are always total; `accepts`, `step` and `run` are total for every
automaton whose current references only declared states (and, for NFA
`run`, whose transition targets are declared) — conditions maintained by
every contract operation.  An automaton whose current references a missing
id (obtainable via `from_map` or deserialization) panics in
`accepts`/`step`/`run` instead of degrading to the dead configuration. -/
theorem claim2_theorem {S I : Type} [DecidableEq S] [DecidableEq I] (d : DFA S I)
    (n : NFA S I) :
    (d.currentOk → (d.accepts).isSome = true ∧ (∀ a : I, (d.step a).isSome = true)
      ∧ ∀ w : List I, (d.run w).isSome = true)
  ∧ (n.currentOk → (n.accepts).isSome = true ∧ ∀ a : I, (n.step a).isSome = true)
  ∧ (n.currentOk → n.targetsOk → ∀ w : List I, (n.run w).isSome = true) :=
  ⟨fun h => ⟨dfa_accepts_isSome h, fun a => dfa_step_isSome h a,
      fun w => dfa_run_isSome h w⟩,
   fun h => ⟨nfa_accepts_isSome h, fun a => nfa_step_isSome h a⟩,
   fun h hT w => nfa_run_isSome h hT w⟩

/-- C2 witness: totality at concrete valid automata. -/
theorem claim2_witness :
    (wfDFA.run [true, false]).isSome = true
      ∧ (wfNFA.run [true, false]).isSome = true :=
  ⟨((claim2_theorem wfDFA wfNFA).1 (by decide)).2.2 [true, false],
   (claim2_theorem wfDFA wfNFA).2.2 (by decide) (by decide) [true, false]⟩

/-- C3, counterexample: the claim includes `from_map` among the operations
preserving the current-validity invariant, but `NFA::from_map` stores its
initial set unchecked: `corruptNFA = NFA.from_map {0} []` has current
`{0}` although `0` is not a declared state. -/
theorem claim3_counterexample : ¬ corruptNFA.currentOk := by decide

/-- C3 (amended): for every automaton produced by any sequence of the
public constructors and operations — for the DFA including `from_map`,
which validates its initial id; for the NFA excluding `from_map`, which
stores its initial set unchecked — the current representation references
only declared ids: a DFA current is `None` or a known id, an NFA current
set is a subset of the known ids.  `set_current` with an unknown id
collapses to the dead configuration rather than partially succeeding. -/
theorem claim3_theorem {S I : Type} [DecidableEq S] [DecidableEq I] :
    (∀ (c : DFACtor S I) (ops : List (Op S I)), ((c.build).applyOps ops).currentOk)
  ∧ (∀ (c : NFACtor S I) (ops : List (Op S I)), ((c.build).applyOps ops).currentOk)
  ∧ (∀ (d : DFA S I) (id : S), d.has_state id = false →
      (d.set_current id).current = none)
  ∧ (∀ (n : NFA S I) (st : Finset S), ¬ (∀ s ∈ st, n.has_state s = true) →
      (n.set_current st).current = ∅) := by
  refine ⟨fun c ops => dfa_applyOps_ok (dfa_build_ok c) ops,
    fun c ops => (nfa_applyOps_inv (nfa_build_inv c) ops).1, ?_, ?_⟩
  · intro d id h
    show (if d.has_state id then some id else none) = none
    rw [h]
    rfl
  · intro n st h
    show (if ∀ s ∈ st, n.has_state s then st else ∅) = ∅
    rw [if_neg h]

/-- C3 witness: `set_current` with an unknown id collapses to the dead
configuration on concrete automata. -/
theorem claim3_witness :
    (wfDFA.set_current 5).current = none ∧ (wfNFA.set_current {0, 5}).current = ∅ :=
  ⟨claim3_theorem.2.2.1 wfDFA 5 (by decide),
   claim3_theorem.2.2.2 wfNFA {0, 5} (by decide)⟩

/-- C4, counterexample: as stated — over every automaton — `get_current`
is not invariant across a completed `run`.  `mixedNFA` (built by the
public `NFA::from_map`) has current `{0, 7}` with state `0` accepting and
declared and `7` undeclared.  In `run([])`, an iteration order of the
short-circuiting `accepts` that reaches `0` first returns `true` without
unwrapping `7` — the run completes — and the restoring
`set_current({0,7})` finds `7` unknown and collapses current to the empty
set: `get_current` goes from `Some({0,7})` before the call to `None`
after it. -/
theorem claim4_counterexample :
    mixedNFA.get_current = some {0, 7}
      ∧ (mixedNFA.run []).map (fun p => (p.1, p.2.get_current))
        = some (true, none) := by
  constructor
  · decide
  · decide

/-- C4 (amended): `run` restores the snapshot of current it takes before
stepping — `get_current` is identical before and after every completed
`run` — for every DFA, and for every NFA whose current references only
declared states (as holds for every automaton built through the contract
operations); an NFA whose current mixes an accepting declared member with
an undeclared id can complete `run` and have its current collapsed to dead
by the restoring `set_current` (see the counterexample).  A dead automaton
returns `false` from `run` immediately with no state change.  (A `run`
that panics — `none` in the model — has no after state.) -/
theorem claim4_theorem {S I : Type} [DecidableEq S] [DecidableEq I]
    (d d' : DFA S I) (n n' : NFA S I) (b b' : Bool) (w w' : List I) :
    (d.run w = some (b, d') → d'.get_current = d.get_current)
  ∧ (d.get_current = none → d.run w = some (false, d))
  ∧ (n.currentOk → n.run w' = some (b', n') → n'.get_current = n.get_current)
  ∧ (n.get_current = none → n.run w' = some (false, n)) := by
  refine ⟨?_, ?_, ?_, ?_⟩
  · intro h
    show d'.current = d.current
    exact dfa_run_restores h
  · intro h
    simp only [DFA.run, h]
  · intro hok h
    have hc := nfa_run_restores hok h
    rw [NFA.get_current, NFA.get_current, hc]
  · intro h
    simp only [NFA.run, h]

/-- C4 witness: a completed accepting run restores current at a concrete
automaton, and dead automata return `false` unchanged. -/
theorem claim4_witness :
    wfDFA.get_current = wfDFA.get_current
      ∧ deadDFA.run [true] = some (false, deadDFA)
      ∧ wfNFA.get_current = wfNFA.get_current
      ∧ deadNFA.run [true] = some (false, deadNFA) :=
  ⟨(claim4_theorem wfDFA wfDFA wfNFA wfNFA true true [true] [true]).1 (by rfl),
   (claim4_theorem deadDFA deadDFA deadNFA deadNFA false false [true] [true]).2.1
     (by rfl),
   (claim4_theorem wfDFA wfDFA wfNFA wfNFA true true [true] [true]).2.2.1
     (by decide) (by rfl),
   (claim4_theorem deadDFA deadDFA deadNFA deadNFA false false [true] [true]).2.2.2
     (by rfl)⟩

/-- C5: `add_transition(prev, symbol, next)` fails with
`InexistentState(next)` when `next` is unknown; otherwise fails with
`InexistentState(prev)` when `prev` is unknown; otherwise succeeds, the
DFA overwriting the target for `(prev, symbol)` and the NFA unioning
`next` into it; on failure the automaton — in particular `prev`'s
transition table — is unchanged (the returned automaton is literally the
input). -/
theorem claim5_theorem {S I : Type} [DecidableEq S] [DecidableEq I]
    (d : DFA S I) (n : NFA S I) (p : S) (i : I) (nx : S) :
    (d.has_state nx = false → d.add_transition p i nx
        = (d, some (.inexistentState nx)))
  ∧ (d.has_state nx = true → d.has_state p = false →
      d.add_transition p i nx = (d, some (.inexistentState p)))
  ∧ (∀ st, d.has_state nx = true → alookup p d.states = some st →
      (d.add_transition p i nx).2 = none
      ∧ alookup p (d.add_transition p i nx).1.states
          = some ⟨st.accepts, fun a => if a = i then some nx else st.transitions a⟩
      ∧ (∀ q, q ≠ p →
          alookup q (d.add_transition p i nx).1.states = alookup q d.states)
      ∧ (d.add_transition p i nx).1.current = d.current)
  ∧ (n.has_state nx = false → n.add_transition p i nx
        = (n, some (.inexistentState nx)))
  ∧ (n.has_state nx = true → n.has_state p = false →
      n.add_transition p i nx = (n, some (.inexistentState p)))
  ∧ (∀ st, n.has_state nx = true → alookup p n.states = some st →
      (n.add_transition p i nx).2 = none
      ∧ alookup p (n.add_transition p i nx).1.states
          = some ⟨st.accepts, fun a =>
              if a = i then some (insert nx ((st.transitions i).getD ∅))
              else st.transitions a⟩
      ∧ (∀ q, q ≠ p →
          alookup q (n.add_transition p i nx).1.states = alookup q n.states)
      ∧ (n.add_transition p i nx).1.current = n.current) := by
  refine ⟨?_, ?_, ?_, ?_, ?_, ?_⟩
  · intro h
    rw [DFA.add_transition, if_pos (by simp [DFA.has_state] at h ⊢; exact h)]
  · intro h1 h2
    rw [DFA.add_transition, if_neg (by simp [h1]),
      alookup_eq_none (show containsKey p d.states = false from h2)]
  · intro st h1 hlk
    rw [DFA.add_transition, if_neg (by simp [h1]), hlk]
    exact ⟨rfl, alookup_mapInsert_self _ _ _,
      fun q hq => alookup_mapInsert_of_ne (Ne.symm hq) _ _, rfl⟩
  · intro h
    rw [NFA.add_transition, if_pos (by simp [NFA.has_state] at h ⊢; exact h)]
  · intro h1 h2
    rw [NFA.add_transition, if_neg (by simp [h1]),
      alookup_eq_none (show containsKey p n.states = false from h2)]
  · intro st h1 hlk
    rw [NFA.add_transition, if_neg (by simp [h1]), hlk]
    refine ⟨rfl, ?_, fun q hq => alookup_mapInsert_of_ne (Ne.symm hq) _ _, rfl⟩
    rw [alookup_mapInsert_self]
    congr 1
    congr 1
    funext a
    by_cases ha : a = i
    · rw [if_pos ha, if_pos ha]
      cases ht : st.transitions i with
      | none =>
          rw [Option.getD_none, NFA.new_state, Finset.insert_empty]
      | some set => rw [Option.getD_some]
    · rw [if_neg ha, if_neg ha]

/-- C5 witness: all three outcomes at concrete automata — unknown `next`,
unknown `prev`, and a successful overwrite/union. -/
theorem claim5_witness :
    wfDFA.add_transition 0 true 99
        = (wfDFA, some (.inexistentState 99))
      ∧ wfDFA.add_transition 99 true 0
        = (wfDFA, some (.inexistentState 99))
      ∧ (wfDFA.add_transition 0 false 0).2 = none
      ∧ (wfNFA.add_transition 0 false 0).2 = none := by
  refine ⟨?_, ?_, ?_, ?_⟩
  · exact (claim5_theorem wfDFA wfNFA 0 true 99).1 (by decide)
  · exact (claim5_theorem wfDFA wfNFA 99 true 0).2.1 (by decide) (by decide)
  · exact ((claim5_theorem wfDFA wfNFA 0 false 0).2.2.1 _ (by decide) (by rfl)).1
  · exact ((claim5_theorem wfDFA wfNFA 0 false 0).2.2.2.2.2 _ (by decide) (by rfl)).1

/-- C6, counterexample: the claim says the converted DFA's initial current
is the NFA's current set, with only a dead (empty) current yielding no
valid current; but a nonempty current containing an undeclared id (as
`NFA::from_map` can store) also yields no valid current, because
`DFA::from_map` validates it against the subset keys. -/
theorem claim6_counterexample :
    strayCurNFA.current ≠ ∅ ∧ (strayCurNFA.toDFA).current = none := by
  constructor
  · decide
  · decide

/-- C6 (amended): for an NFA with `n` declared states (distinct keys), the
powerset DFA has exactly the nonempty subsets of the declared-id set as
states — all `2^n − 1` of them, eagerly enumerated — each subset accepting
iff one of its members accepts, each subset's entry for a symbol present
iff some member has one and equal to the union of the members' target sets
(`powTrans`); the DFA's initial current is the NFA's current set when that
set is nonempty and contains only declared ids, and no valid current
otherwise (the claim's wording covers only the empty case). -/
theorem claim6_theorem {S I : Type} [DecidableEq S] [DecidableEq I] (n : NFA S I)
    (hn : keysNodup n.states) :
    (∀ t : Finset S, (n.toDFA).has_state t = true
        ↔ t.Nonempty ∧ t ⊆ keysFinset n.states)
  ∧ keysFinset (n.toDFA).states = ((keysFinset n.states).powerset).erase ∅
  ∧ (keysFinset (n.toDFA).states).card = 2 ^ n.states.length - 1
  ∧ (∀ t : Finset S, t.Nonempty → t ⊆ keysFinset n.states →
      alookup t (n.toDFA).states
        = some ⟨powAccepts n.states t, powTrans n.states t⟩)
  ∧ (n.toDFA).current
      = (if n.current.Nonempty ∧ n.current ⊆ keysFinset n.states then some n.current
         else none) := by
  have hhs : ∀ t : Finset S, (n.toDFA).has_state t = true
      ↔ t.Nonempty ∧ t ⊆ keysFinset n.states := by
    intro t
    show containsKey t (convDStates n.states) = true ↔ _
    exact convDFA_containsKey hn t
  have hkeys : keysFinset (n.toDFA).states = ((keysFinset n.states).powerset).erase ∅ := by
    apply Finset.ext
    intro t
    rw [← containsKey_iff_mem_keysFinset]
    rw [show containsKey t (n.toDFA).states = (n.toDFA).has_state t from rfl, hhs t]
    rw [Finset.mem_erase, Finset.mem_powerset]
    constructor
    · rintro ⟨h1, h2⟩
      exact ⟨h1.ne_empty, h2⟩
    · rintro ⟨h1, h2⟩
      exact ⟨Finset.nonempty_iff_ne_empty.2 h1, h2⟩
  refine ⟨hhs, hkeys, ?_, ?_, toDFA_current hn⟩
  · rw [hkeys, Finset.card_erase_of_mem (Finset.empty_mem_powerset _),
      Finset.card_powerset]
    have : (keysFinset n.states).card = n.states.length := by
      rw [keysFinset, List.toFinset_card_of_nodup hn]
      exact List.length_map _ _
    rw [this]
  · intro t h1 h2
    show alookup t (convDStates n.states) = _
    rw [convDFA_alookup hn, if_pos ⟨h1, h2⟩]

/-- C6 witness: the amended description at a concrete one-state NFA. -/
theorem claim6_witness :
    (wfNFA.toDFA).has_state {0} = true ∧ (wfNFA.toDFA).current = some {0} := by
  constructor
  · exact ((claim6_theorem wfNFA (by decide)).1 {0}).2 ⟨by decide, by decide⟩
  · have h := (claim6_theorem wfNFA (by decide)).2.2.2.2
    rw [h]
    decide

/-- C7: once current is the dead configuration (`None` for the DFA, the
empty set for the NFA), any sequence of further `step`s leaves the
automaton entirely unchanged — in particular still dead — and `accepts`
returns `false`; only `set_current` can change this. -/
theorem claim7_theorem {S I : Type} [DecidableEq S] [DecidableEq I]
    (d : DFA S I) (n : NFA S I) (w : List I) :
    (d.current = none → DFA.runSteps d w = some d ∧ d.accepts = some false)
  ∧ (n.current = ∅ → NFA.runSteps n w = some n ∧ n.accepts = some false) := by
  constructor
  · intro h
    refine ⟨dfa_dead_runSteps h w, ?_⟩
    simp [DFA.accepts, h]
  · intro h
    refine ⟨nfa_dead_runSteps h w, ?_⟩
    rw [NFA.accepts, if_neg (by rw [h]; rintro ⟨s, hs, _⟩; simp at hs),
      if_pos (by rw [h]; intro s hs; simp at hs)]

/-- C7 witness: dead absorption over a concrete input sequence. -/
theorem claim7_witness :
    (DFA.runSteps deadDFA [true, false] = some deadDFA
        ∧ deadDFA.accepts = some false)
      ∧ (NFA.runSteps deadNFA [true, false] = some deadNFA
        ∧ deadNFA.accepts = some false) :=
  ⟨(claim7_theorem deadDFA deadNFA [true, false]).1 (by rfl),
   (claim7_theorem deadDFA deadNFA [true, false]).2 (by rfl)⟩

/-- C8, counterexample: the lift is not behaviour-preserving for every
DFA.  `danglingDFA` records a transition to the undeclared state `1`;
`DFA::step` re-checks the target and goes dead (`run` returns `false`),
but the lifted NFA moves its current set to `{1}` unchecked and then
panics in `accepts` (modelled as `none`). -/
theorem claim8_counterexample :
    (danglingDFA.run [true]).map Prod.fst = some false
      ∧ ((danglingDFA.toNFA).run [true]).map Prod.fst = none := by
  constructor
  · decide
  · decide

/-- C8 (amended): the DFA→NFA lift keeps the same state ids, each with the
same accept flag and each single target lifted to a one-element set
(`liftNState`), and lifts current to the singleton (or empty) set; it is
behaviour-preserving for every DFA whose recorded transition targets all
reference existing states (always the case when built through the contract
operations); a DFA with a dangling target runs dead where its lift
panics. -/
theorem claim8_theorem {S I : Type} [DecidableEq S] [DecidableEq I] (d : DFA S I) :
    (∀ id, alookup id d.toNFA.states = (alookup id d.states).map liftNState)
  ∧ (∀ id, d.toNFA.has_state id = d.has_state id)
  ∧ d.toNFA.current = liftCur d.current
  ∧ (d.targetsOk →
      ∀ w : List I, (d.toNFA.run w).map Prod.fst = (d.run w).map Prod.fst) :=
  ⟨toNFA_alookup d, fun id => toNFA_containsKey d id, toNFA_current d,
   fun hT w => lift_run hT w⟩

/-- C8 witness: behaviour preservation at a concrete well-formed DFA. -/
theorem claim8_witness :
    (wfDFA.toNFA.run [true, false]).map Prod.fst
      = (wfDFA.run [true, false]).map Prod.fst :=
  (claim8_theorem wfDFA).2.2.2 (by decide) [true, false]

/-- C9: the two bulk map constructors validate their initial current
differently — `DFA::from_map` sets current to `Some(initial)` iff
`initial` is a key of the map and to `None` otherwise, while
`NFA::from_map` stores the initial set as current unchecked, even when it
contains undeclared ids. -/
theorem claim9_theorem {S I : Type} [DecidableEq S] [DecidableEq I] (init : S)
    (m : List (S × (Bool × (I → Option S)))) (init' : Finset S)
    (m' : List (S × (Bool × (I → Option (Finset S))))) :
    (containsKey init m = true → (DFA.from_map init m : DFA S I).current = some init)
  ∧ (containsKey init m = false → (DFA.from_map init m : DFA S I).current = none)
  ∧ (NFA.from_map init' m' : NFA S I).current = init' := by
  refine ⟨?_, ?_, rfl⟩
  · intro h
    show (if containsKey init m then some init else none) = some init
    rw [h]
    rfl
  · intro h
    show (if containsKey init m then some init else none) = none
    rw [h]
    rfl

/-- C9 witness: an undeclared initial id nulls the DFA current while the
NFA keeps an undeclared initial set verbatim. -/
theorem claim9_witness :
    (DFA.from_map 5 ([] : List (Nat × (Bool × (Bool → Option Nat))))).current = none
      ∧ (NFA.from_map {5}
          ([] : List (Nat × (Bool × (Bool → Option (Finset Nat)))))).current = {5} :=
  ⟨(claim9_theorem 5 [] {5} []).2.1 (by decide),
   (claim9_theorem 5 ([] : List (Nat × (Bool × (Bool → Option Nat)))) {5} []).2.2⟩

/-- C10: no contract operation removes a state — for both engines, each of
`add_state`, `add_transition`, `set_current`, `step` and `run` preserves
`has_state`; `add_state` on an existing id overwrites its record with the
given accept flag and an empty transition table, the id remaining
present. -/
theorem claim10_theorem {S I : Type} [DecidableEq S] [DecidableEq I]
    (d : DFA S I) (n : NFA S I) (op : Op S I) (id : S) (b : Bool) :
    (d.has_state id = true → (d.applyOp op).has_state id = true)
  ∧ alookup id (d.add_state id b).states = some ⟨b, fun _ => none⟩
  ∧ (n.has_state id = true → (n.applyOp op).has_state id = true)
  ∧ alookup id (n.add_state id b).states = some ⟨b, fun _ => none⟩ :=
  ⟨fun h => dfa_applyOp_hasState op h, alookup_mapInsert_self _ _ _,
   fun h => nfa_applyOp_hasState op h, alookup_mapInsert_self _ _ _⟩

/-- C10 witness: state preservation under a concrete `run` operation. -/
theorem claim10_witness :
    (wfDFA.applyOp (Op.runOp [true])).has_state 0 = true
      ∧ (wfNFA.applyOp (Op.runOp [true])).has_state 0 = true :=
  ⟨(claim10_theorem wfDFA wfNFA (Op.runOp [true]) 0 true).1 (by decide),
   (claim10_theorem wfDFA wfNFA (Op.runOp [true]) 0 true).2.2.1 (by decide)⟩

end Claims

end Finite
